import Mathlib

/-!
The `Pile` circular-buffer deque of enistd42: a shallow embedding of `src/enistd42.h`.

Modelling conventions.

* `unsigned long` is 64 bits wide: every field of a `Pile` is a natural number below
  `ULONG = 2 ^ 64`, and every arithmetic step of the source is followed by `% ULONG`.
* Memory is element-granular.  `data` maps a slot index (byte offset divided by the
  element size) to the element stored there, and is total: an access beyond the
  allocated region is not trapped by the model, it just lands in the slot it
  addresses.  Bounds are stated separately, from the slot indices the code computes.
* `malloc` returns a region with arbitrary contents; that content is the parameter
  `heap`.  `malloc`/`realloc` are taken to succeed (their failure path exits).
* `alloc` is a ghost field: the byte size handed to the last `malloc`/`realloc`, so the
  region behind `data` is the bytes `[0, alloc)` and slot `j` lies in it when
  `(j + 1) * dsize <= alloc`.  In the program an access outside the region is undefined
  behaviour; the total memory of the model still gives it a value.  A statement about
  stored values therefore speaks for the program only where the accesses stay inside the
  region, which `outOfRegion` and `allOutOfRegion` decide.
* `exit(1)` and a division by zero are outcomes of their own (`PopResult`).
-/

namespace Enistd42

/-- Number of values of a 64-bit `unsigned long`. -/
def ULONG : Nat := 18446744073709551616

/-- Growth factor, `#define __PILE_EXPONENT__ 2`. -/
def __PILE_EXPONENT__ : Nat := 2

/-- Initial capacity, `#define __PILE_DEFAULT_CAPACITY__ 8`. -/
def __PILE_DEFAULT_CAPACITY__ : Nat := 8

/-- The macro `MAX(a, b) ((a)>(b)?(a):(b))`. -/
def MAX (a b : Nat) : Nat := if a > b then a else b

/-- The struct `Pile`; `alloc` is the ghost byte size of the region behind `data`. -/
structure Pile (α : Type) where
  capacity : Nat
  dsize : Nat
  front : Nat
  back : Nat
  data : Nat → α
  alloc : Nat

/-- All `unsigned long` fields are in range. -/
def Pile.InRange {α : Type} (p : Pile α) : Prop :=
  p.capacity < ULONG ∧ p.front < ULONG ∧ p.back < ULONG

/-- Block copy of `n` slots from slot `s` of `src` to slot `d` of `dst`
(`memcpy`, and `memmove` when both regions are the same). -/
def copySlots {α : Type} (dst : Nat → α) (d : Nat) (src : Nat → α) (s n : Nat) : Nat → α :=
  fun j => if d ≤ j ∧ j < d + n then src (j - d + s) else dst j

/-- The store `((dtype*)data)[i] = x`. -/
def writeSlot {α : Type} (m : Nat → α) (i : Nat) (x : α) : Nat → α :=
  fun j => if j = i then x else m j

/-- The macro `INIT_PILE(dtype)`; `dsize` is `sizeof(dtype)`. -/
def INIT_PILE {α : Type} (dsize : Nat) (heap : Nat → α) : Pile α :=
  { capacity := __PILE_DEFAULT_CAPACITY__
    dsize := dsize
    front := 0
    back := 0
    data := heap
    alloc := (__PILE_DEFAULT_CAPACITY__ * dsize) % ULONG }

/-- The macro `INIT_PILE_FROM(dtype, n, data)`; `src` is the memory `data` points to. -/
def INIT_PILE_FROM {α : Type} (dsize n : Nat) (src heap : Nat → α) : Pile α :=
  { capacity := MAX n __PILE_DEFAULT_CAPACITY__
    dsize := dsize
    front := 0
    back := n
    data := copySlots heap 0 src 0 n
    alloc := (dsize * MAX n __PILE_DEFAULT_CAPACITY__) % ULONG }

/-- The macro `PILE_LENGTH(p)`: `back - front` in 64-bit arithmetic. -/
def PILE_LENGTH {α : Type} (p : Pile α) : Nat :=
  (p.back + ULONG - p.front) % ULONG

/-- The test `p->back == p->front + p->capacity` of `increase_if_full`. -/
def isFull {α : Type} (p : Pile α) : Bool :=
  p.back == (p.front + p.capacity) % ULONG

/-- The function `increase_if_full` (lines 46-66).  On the growth branch `capacity` is
multiplied by `__PILE_EXPONENT__`, `realloc(p->data, p->capacity)` keeps the stored bytes
and is handed the new `capacity` as its byte size, and
`memcpy(data + dsize * (back - front), data, dsize * front)` copies `front` slots from
slot 0 to slot `back - front`.  The byte size of the region becomes `capacity`, whatever
`dsize` is: `alloc` records it, and the slots that are left outside the region are told
by `outOfRegion`.  A `realloc` that fails leaves through `exit(1)`; that path is not
modelled. -/
def increase_if_full {α : Type} (p : Pile α) : Pile α :=
  if isFull p then
    let cap := (p.capacity * __PILE_EXPONENT__) % ULONG
    { p with
      capacity := cap
      alloc := cap
      data := copySlots p.data (PILE_LENGTH p) p.data 0 p.front }
  else p

/-- The `memmove` call of `shrink_to_fit`, in slots: destination, source, count.
Wrapped branch (`back > capacity`, line 76): to `back - capacity`, from `front`,
`capacity - front` slots.  Other branch (line 82): to slot 0, from slot `length`,
`back - length` slots.  All three are `unsigned long` expressions; the byte values the
code passes, each `dsize` times these in `unsigned long`, are `shrinkMoveBytes`. -/
def shrinkMove {α : Type} (p : Pile α) : Nat × Nat × Nat :=
  if p.back > p.capacity then
    ((p.back + ULONG - p.capacity) % ULONG, p.front, (p.capacity + ULONG - p.front) % ULONG)
  else
    (0, PILE_LENGTH p, (p.back + ULONG - PILE_LENGTH p) % ULONG)

/-- The function `shrink_to_fit` (lines 69-87): the `memmove` of its branch, `front`
reset to `back - capacity` on the wrapped branch only, then `back = front + length` and
`capacity = length`. -/
def shrink_to_fit {α : Type} (p : Pile α) : Pile α :=
  let length := PILE_LENGTH p
  let mv := shrinkMove p
  let moved := copySlots p.data mv.1 p.data mv.2.1 mv.2.2
  let front := if p.back > p.capacity then (p.back + ULONG - p.capacity) % ULONG else p.front
  { p with
    data := moved
    front := front
    back := (front + length) % ULONG
    capacity := length }

/-- The macro `PILE_PUSH_BACK(p, dtype, x)` (line 89):
`increase_if_full(&p); data[back++] = x;`.  The index of the store is `back` itself. -/
def PILE_PUSH_BACK {α : Type} (p : Pile α) (x : α) : Pile α :=
  let q := increase_if_full p
  { q with data := writeSlot q.data q.back x, back := (q.back + 1) % ULONG }

/-- The macro `PILE_PUSH_FRONT(p, dtype, x)` (line 90): `increase_if_full(&p);` then, when
`front` is 0, `front += capacity; back += capacity;`, then `data[--front] = x;`. -/
def PILE_PUSH_FRONT {α : Type} (p : Pile α) (x : α) : Pile α :=
  let q := increase_if_full p
  let q := if q.front = 0 then
      { q with front := (q.front + q.capacity) % ULONG, back := (q.back + q.capacity) % ULONG }
    else q
  let f := (q.front + ULONG - 1) % ULONG
  { q with front := f, data := writeSlot q.data f x }

/-- The function `__throw_if_empty_and_handle_pop_front_wrapping__` (lines 94-107):
`.error` carries the state at the call of `exit(1)`, `.ok` the state it returns, with
`front = -1` and `back -= capacity` when `front + 1 == capacity` in a front pop. -/
def __throw_if_empty_and_handle_pop_front_wrapping__ {α : Type} (p : Pile α)
    (pop_front : Bool) : Except (Pile α) (Pile α) :=
  if PILE_LENGTH p = 0 then .error p
  else if (p.front + 1) % ULONG = p.capacity ∧ pop_front = true then
    .ok { p with front := ULONG - 1, back := (p.back + ULONG - p.capacity) % ULONG }
  else .ok p

/-- How a pop ends: it returns an element, or the helper calls `exit(1)` on an empty
pile, or `% capacity` divides by zero. -/
inductive PopResult (α : Type) where
  | value (x : α) (p : Pile α)
  | underflow (p : Pile α)
  | divByZero (p : Pile α)

/-- The macro `PILE_POP_BACK(p, dtype)` (line 109): after the helper,
`data[--back % capacity]`. -/
def PILE_POP_BACK {α : Type} (p : Pile α) : PopResult α :=
  match __throw_if_empty_and_handle_pop_front_wrapping__ p false with
  | .error q => .underflow q
  | .ok q =>
    let b := (q.back + ULONG - 1) % ULONG
    let q := { q with back := b }
    if q.capacity = 0 then .divByZero q else .value (q.data (b % q.capacity)) q

/-- The macro `PILE_POP_FRONT(p, dtype)` (line 110): after the helper,
`data[(front++ + capacity) % capacity]`, the sum taken in `unsigned long`. -/
def PILE_POP_FRONT {α : Type} (p : Pile α) : PopResult α :=
  match __throw_if_empty_and_handle_pop_front_wrapping__ p true with
  | .error q => .underflow q
  | .ok q =>
    let f := q.front
    let q := { q with front := (f + 1) % ULONG }
    if q.capacity = 0 then .divByZero q
    else .value (q.data (((f + q.capacity) % ULONG) % q.capacity)) q

/-- Front-to-back contents: logical index `front + k` read at slot `index mod capacity`. -/
def contents {α : Type} (p : Pile α) : List α :=
  (List.range (PILE_LENGTH p)).map fun k => p.data (((p.front + k) % ULONG) % p.capacity)

/-- One call of the library. -/
inductive Op (α : Type) where
  | push_back (x : α)
  | push_front (x : α)
  | pop_back
  | pop_front
  | shrink_to_fit
  | increase_if_full

/-- Value and state of a pop that returned. -/
def PopResult.toOption {α : Type} : PopResult α → Option (Option α × Pile α)
  | .value x p => some (some x, p)
  | .underflow _ => none
  | .divByZero _ => none

/-- Runs one call; `none` when the call does not return. -/
def step {α : Type} (p : Pile α) : Op α → Option (Option α × Pile α)
  | .push_back x => some (none, PILE_PUSH_BACK p x)
  | .push_front x => some (none, PILE_PUSH_FRONT p x)
  | .pop_back => (PILE_POP_BACK p).toOption
  | .pop_front => (PILE_POP_FRONT p).toOption
  | .shrink_to_fit => some (none, shrink_to_fit p)
  | .increase_if_full => some (none, increase_if_full p)

/-- Runs a sequence of calls, collecting the popped values in order. -/
def runOps {α : Type} : List (Op α) → Pile α → Option (List α × Pile α)
  | [], p => some ([], p)
  | op :: ops, p =>
    match step p op with
    | none => none
    | some (out, q) =>
      match runOps ops q with
      | none => none
      | some (outs, r) => some (out.toList ++ outs, r)

/-- Reference double-ended queue, one call: the deque is the list of its elements from
front to back; `none` when popping from the empty deque. -/
def refStep {α : Type} (l : List α) : Op α → Option (Option α × List α)
  | .push_back x => some (none, l ++ [x])
  | .push_front x => some (none, x :: l)
  | .pop_back =>
    match l.getLast? with
    | none => none
    | some x => some (some x, l.dropLast)
  | .pop_front =>
    match l with
    | [] => none
    | x :: t => some (some x, t)
  | .shrink_to_fit => some (none, l)
  | .increase_if_full => some (none, l)

/-- Reference double-ended queue, a sequence of calls. -/
def refOps {α : Type} : List (Op α) → List α → Option (List α × List α)
  | [], l => some ([], l)
  | op :: ops, l =>
    match refStep l op with
    | none => none
    | some (out, m) =>
      match refOps ops m with
      | none => none
      | some (outs, r) => some (out.toList ++ outs, r)

/-- Number of pushes in a sequence of calls. -/
def pushes {α : Type} : List (Op α) → Nat
  | [] => 0
  | .push_back _ :: ops => pushes ops + 1
  | .push_front _ :: ops => pushes ops + 1
  | _ :: ops => pushes ops

/-- Number of pops in a sequence of calls. -/
def pops {α : Type} : List (Op α) → Nat
  | [] => 0
  | .pop_back :: ops => pops ops + 1
  | .pop_front :: ops => pops ops + 1
  | _ :: ops => pops ops

/-- The sequence `push_front a, push_back b` repeated `n` times, with the values
`1, 2, 3, ...` in push order. -/
def alternating : Nat → Nat → List (Op Nat)
  | 0, _ => []
  | n + 1, k => .push_front k :: .push_back (k + 1) :: alternating n (k + 2)

/-- The element a pop returned, if it returned. -/
def PopResult.val? {α : Type} : PopResult α → Option α
  | .value x _ => some x
  | .underflow _ => none
  | .divByZero _ => none

/-- The state a pop ended in. -/
def PopResult.state {α : Type} : PopResult α → Pile α
  | .value _ p => p
  | .underflow p => p
  | .divByZero p => p

/-- The invariants documented on the struct: `capacity` is not 0, `0 <= front < capacity`,
and `back - front`, the number of elements, is at most `capacity`. -/
def Pile.Documented {α : Type} (p : Pile α) : Prop :=
  0 < p.capacity ∧ p.front < p.capacity ∧ PILE_LENGTH p ≤ p.capacity

/-- Sample content of a fresh region: slot `i` holds `100 + i`. -/
def junk : Nat → Nat := fun i => 100 + i

/-- Sample source array: element `i` is `10 + i`. -/
def sample : Nat → Nat := fun i => 10 + i

/-- The pile `INIT_PILE(int)` after one `PILE_PUSH_FRONT` of `0`:
capacity 8, front 7, back 8. -/
def frontPushed : Pile Nat :=
  PILE_PUSH_FRONT (INIT_PILE 4 junk) 0

/-- The pile `INIT_PILE_FROM(int, 7, sample)` after five `PILE_POP_FRONT`:
capacity 8, front 5, back 7, holding `15, 16`. -/
def tailPile : Pile Nat :=
  { capacity := 8
    dsize := 4
    front := 5
    back := 7
    data := copySlots junk 0 sample 0 7
    alloc := 32 }

/-- A sequence of calls on `INIT_PILE(int)` in which every pop returns. -/
def demoOps : List (Op Nat) :=
  [.push_back 1, .push_front 0, .pop_front, .shrink_to_fit, .pop_back]

/-- The state `demoOps` ends in. -/
def demoFinal : Pile Nat :=
  (PILE_POP_BACK (shrink_to_fit
    (PILE_POP_FRONT (PILE_PUSH_FRONT (PILE_PUSH_BACK (INIT_PILE 4 junk) 1) 0)).state)).state

/-- The two blocks of the `memcpy` of `increase_if_full` (line 64), each as first slot,
number of slots, capacity in force: the destination at slot `back - front` and the source
at slot 0, `front` slots each, under the capacity just multiplied.  No block when the
pile is not full. -/
def growBlocks {α : Type} (p : Pile α) : List (Nat × Nat × Nat) :=
  if isFull p then
    [(PILE_LENGTH p, p.front, (p.capacity * __PILE_EXPONENT__) % ULONG),
     (0, p.front, (p.capacity * __PILE_EXPONENT__) % ULONG)]
  else []

/-- The index of the store of `PILE_PUSH_FRONT`: the value of `--front`. -/
def pushFrontIndex {α : Type} (p : Pile α) : Nat :=
  let q := increase_if_full p
  let f := if q.front = 0 then (q.front + q.capacity) % ULONG else q.front
  (f + ULONG - 1) % ULONG

/-- The index `PILE_POP_BACK` reads once the helper has returned: `--back % capacity`. -/
def popBackIndex {α : Type} (p : Pile α) : Nat :=
  ((p.back + ULONG - 1) % ULONG) % p.capacity

/-- The index `PILE_POP_FRONT` reads once the helper has returned:
`(front++ + capacity) % capacity`, with `front` already set to `-1` by the helper when
`front + 1 == capacity`. -/
def popFrontIndex {α : Type} (p : Pile α) : Nat :=
  if (p.front + 1) % ULONG = p.capacity then ((ULONG - 1 + p.capacity) % ULONG) % p.capacity
  else ((p.front + p.capacity) % ULONG) % p.capacity

/-- The slots a call reads or writes at state `p`, as blocks: first slot, number of
slots, capacity in force at the access.  A pop of an empty pile touches no slot. -/
def accesses {α : Type} (p : Pile α) : Op α → List (Nat × Nat × Nat)
  | .push_back _ =>
    growBlocks p ++ [((increase_if_full p).back, 1, (increase_if_full p).capacity)]
  | .push_front _ => growBlocks p ++ [(pushFrontIndex p, 1, (increase_if_full p).capacity)]
  | .pop_back => if PILE_LENGTH p = 0 then [] else [(popBackIndex p, 1, p.capacity)]
  | .pop_front => if PILE_LENGTH p = 0 then [] else [(popFrontIndex p, 1, p.capacity)]
  | .shrink_to_fit =>
    [((shrinkMove p).1, (shrinkMove p).2.2, p.capacity),
     ((shrinkMove p).2.1, (shrinkMove p).2.2, p.capacity)]
  | .increase_if_full => growBlocks p

/-- The blocks touched along a sequence of calls, in order, up to the first call that
does not return. -/
def allAccesses {α : Type} : List (Op α) → Pile α → List (Nat × Nat × Nat)
  | [], _ => []
  | op :: ops, p =>
    accesses p op ++
      match step p op with
      | none => []
      | some (_, q) => allAccesses ops q

/-- The states visited along a sequence of calls, the first one included, up to the
first call that does not return. -/
def trace {α : Type} : List (Op α) → Pile α → List (Pile α)
  | [], p => [p]
  | op :: ops, p =>
    p ::
      match step p op with
      | none => []
      | some (_, q) => trace ops q

/-- The capacity a call grows the pile to, as the product `capacity * 2` before it is
cut to 64 bits: one entry when the call runs `increase_if_full` on a full pile. -/
def grownTo {α : Type} (p : Pile α) : Op α → List Nat
  | .push_back _ => if isFull p then [p.capacity * __PILE_EXPONENT__] else []
  | .push_front _ => if isFull p then [p.capacity * __PILE_EXPONENT__] else []
  | .increase_if_full => if isFull p then [p.capacity * __PILE_EXPONENT__] else []
  | _ => []

/-- The capacities the growth events of a sequence of calls reach, in order. -/
def allGrowths {α : Type} : List (Op α) → Pile α → List Nat
  | [], _ => []
  | op :: ops, p =>
    grownTo p op ++
      match step p op with
      | none => []
      | some (_, q) => allGrowths ops q

/-- Whether a call is one of `PILE_PUSH_FRONT`, `PILE_POP_FRONT`, `PILE_POP_BACK`. -/
def Op.frontOnly {α : Type} : Op α → Bool
  | .push_front _ => true
  | .pop_front => true
  | .pop_back => true
  | _ => false

/-- The documented invariants together with the two facts the arithmetic of the library
relies on: the logical range does not wrap (`front <= back <= front + capacity` as
natural numbers) and `capacity <= 2 ^ 63`. -/
def Pile.Inv {α : Type} (p : Pile α) : Prop :=
  0 < p.capacity ∧ p.capacity ≤ 2 ^ 63 ∧ p.front < p.capacity ∧ p.front ≤ p.back
    ∧ p.back ≤ p.front + p.capacity

/-- The spec's scenario, first part: push_back 1, 2, 3 and push_front 0. -/
def scenarioPushes : List (Op Nat) :=
  [.push_back 1, .push_back 2, .push_back 3, .push_front 0]

/-- The spec's scenario, second part: pop_front, pop_back. -/
def scenarioPops : List (Op Nat) := [.pop_front, .pop_back]

/-- The spec's scenario, third part: push_back 4, 5, 6, 7, 8, 9. -/
def scenarioRefill : List (Op Nat) :=
  [.push_back 4, .push_back 5, .push_back 6, .push_back 7, .push_back 8, .push_back 9]

/-- The same pile with every stored element sent through `f`. -/
def Pile.map {α β : Type} (f : α → β) (p : Pile α) : Pile β :=
  { capacity := p.capacity
    dsize := p.dsize
    front := p.front
    back := p.back
    data := fun j => f (p.data j)
    alloc := p.alloc }

/-- The same call with the pushed element sent through `f`. -/
def Op.map {α β : Type} (f : α → β) : Op α → Op β
  | .push_back x => .push_back (f x)
  | .push_front x => .push_front (f x)
  | .pop_back => .pop_back
  | .pop_front => .pop_front
  | .shrink_to_fit => .shrink_to_fit
  | .increase_if_full => .increase_if_full

/-- The same outcome with the element and the stored elements sent through `f`. -/
def PopResult.map {α β : Type} (f : α → β) : PopResult α → PopResult β
  | .value x p => .value (f x) (p.map f)
  | .underflow p => .underflow (p.map f)
  | .divByZero p => .divByZero (p.map f)

/-- Names for the elements of a run on `INIT_PILE`: the initial content of a slot of the
fresh region, or a pushed value. -/
def named (heap : Nat → Nat) : Nat ⊕ Nat → Nat
  | .inl i => heap i
  | .inr v => v

/-- What a run is observed by: the popped values, the front-to-back contents of the final
pile, its `PILE_LENGTH`, `capacity`, `front` and `back`. -/
def summary {α : Type} (r : List α × Pile α) : List α × List α × Nat × Nat × Nat × Nat :=
  (r.1, contents r.2, PILE_LENGTH r.2, r.2.capacity, r.2.front, r.2.back)

/-- The full pile `INIT_PILE_FROM(int, 8, sample)`: capacity 8, 4-byte elements, a region
of 32 bytes. -/
def fullOfInts : Pile Nat := INIT_PILE_FROM 4 8 sample junk

/-- A pile of capacity 8 holding `17, 18, 19` at slots 7, 0, 1: `front` is at the last
slot. -/
def lastSlotPile : Pile Nat :=
  { capacity := 8
    dsize := 4
    front := 7
    back := 10
    data := fun j => if j < 7 then 18 + j else 10 + j
    alloc := 32 }

/-- Whether a pop ended in a division by zero. -/
def PopResult.isDivByZero {α : Type} : PopResult α → Bool
  | .divByZero _ => true
  | _ => false

/-- The byte arguments of the `memmove` call of `shrink_to_fit`: destination offset,
source offset and size, each `dsize` times the slot value in `unsigned long`. -/
def shrinkMoveBytes {α : Type} (p : Pile α) : Nat × Nat × Nat :=
  ((p.dsize * (shrinkMove p).1) % ULONG, (p.dsize * (shrinkMove p).2.1) % ULONG,
    (p.dsize * (shrinkMove p).2.2) % ULONG)

/-- The storage invariant of the spec: the region holds `capacity` slots of `dsize`
bytes. -/
def Pile.Stored {α : Type} (p : Pile α) : Prop :=
  p.capacity * p.dsize ≤ p.alloc

/-- The element size and the byte size of the region in force when a call touches the
memory: those left by `increase_if_full` for the calls that run it first, those of the
pile for the others. -/
def regionInForce {α : Type} (p : Pile α) : Op α → Nat × Nat
  | .push_back _ => ((increase_if_full p).dsize, (increase_if_full p).alloc)
  | .push_front _ => ((increase_if_full p).dsize, (increase_if_full p).alloc)
  | .increase_if_full => ((increase_if_full p).dsize, (increase_if_full p).alloc)
  | _ => (p.dsize, p.alloc)

/-- The blocks of a call that touch at least one slot and end beyond the region in
force: `(first + count) * dsize > alloc`. -/
def outOfRegion {α : Type} (p : Pile α) (op : Op α) : List (Nat × Nat × Nat) :=
  (accesses p op).filter fun b =>
    decide (0 < b.2.1 ∧ (regionInForce p op).2 < (b.1 + b.2.1) * (regionInForce p op).1)

/-- The blocks beyond the region along a sequence of calls, in order, up to the first
call that does not return. -/
def allOutOfRegion {α : Type} : List (Op α) → Pile α → List (Nat × Nat × Nat)
  | [], _ => []
  | op :: ops, p =>
    outOfRegion p op ++
      match step p op with
      | none => []
      | some (_, q) => allOutOfRegion ops q

/-- The logical indices of `[front, back)` whose slot `index mod capacity` lies inside
the region. -/
def indicesInRegion {α : Type} (p : Pile α) : List Nat :=
  (List.range' p.front (PILE_LENGTH p)).filter fun i =>
    decide ((i % p.capacity + 1) * p.dsize ≤ p.alloc)

/-- Calls on `INIT_PILE(int)` that leave a full pile whose logical range wraps: eight
`PILE_PUSH_FRONT`, three `PILE_POP_BACK`, three more `PILE_PUSH_FRONT` (capacity 8,
front 5, back 13). -/
def wrapOps : List (Op Nat) :=
  [.push_front 1, .push_front 2, .push_front 3, .push_front 4, .push_front 5,
   .push_front 6, .push_front 7, .push_front 8, .pop_back, .pop_back, .pop_back,
   .push_front 9, .push_front 10, .push_front 11]

end Enistd42


/-! Basic facts about each operation, and the claims proved from them. -/

namespace Enistd42


theorem increase_if_full_front {α : Type} (p : Pile α) : (increase_if_full p).front = p.front := by
  unfold increase_if_full; split <;> rfl

theorem increase_if_full_back {α : Type} (p : Pile α) : (increase_if_full p).back = p.back := by
  unfold increase_if_full; split <;> rfl

theorem increase_if_full_capacity {α : Type} (p : Pile α) :
    (increase_if_full p).capacity
      = if isFull p = true then (p.capacity * 2) % ULONG else p.capacity := by
  unfold increase_if_full; split <;> rfl

theorem increase_if_full_data {α : Type} (p : Pile α) :
    (increase_if_full p).data
      = if isFull p = true then copySlots p.data (PILE_LENGTH p) p.data 0 p.front
        else p.data := by
  unfold increase_if_full; split <;> rfl

theorem isFull_iff {α : Type} (p : Pile α) : isFull p = true ↔ p.back = (p.front + p.capacity) % ULONG := by
  simp [isFull]

theorem PILE_POP_BACK_eq {α : Type} (p : Pile α) :
    PILE_POP_BACK p =
      if PILE_LENGTH p = 0 then .underflow p
      else if p.capacity = 0 then .divByZero { p with back := (p.back + ULONG - 1) % ULONG }
      else .value (p.data (((p.back + ULONG - 1) % ULONG) % p.capacity))
        { p with back := (p.back + ULONG - 1) % ULONG } := by
  unfold PILE_POP_BACK __throw_if_empty_and_handle_pop_front_wrapping__
  by_cases h : PILE_LENGTH p = 0
  · simp [h]
  · simp [h]

theorem PILE_POP_FRONT_eq {α : Type} (p : Pile α) :
    PILE_POP_FRONT p =
      if PILE_LENGTH p = 0 then .underflow p
      else if (p.front + 1) % ULONG = p.capacity then
        (if p.capacity = 0 then
          .divByZero { p with front := (ULONG - 1 + 1) % ULONG,
                              back := (p.back + ULONG - p.capacity) % ULONG }
        else
          .value (p.data (((ULONG - 1 + p.capacity) % ULONG) % p.capacity))
            { p with front := (ULONG - 1 + 1) % ULONG,
                     back := (p.back + ULONG - p.capacity) % ULONG })
      else
        (if p.capacity = 0 then .divByZero { p with front := (p.front + 1) % ULONG }
        else
          .value (p.data (((p.front + p.capacity) % ULONG) % p.capacity))
            { p with front := (p.front + 1) % ULONG }) := by
  unfold PILE_POP_FRONT __throw_if_empty_and_handle_pop_front_wrapping__
  by_cases h : PILE_LENGTH p = 0
  · simp [h]
  · by_cases h2 : (p.front + 1) % ULONG = p.capacity
    · simp [h, h2]
    · simp [h, h2]


theorem PILE_PUSH_BACK_front {α : Type} (p : Pile α) (x : α) : (PILE_PUSH_BACK p x).front = p.front :=
  increase_if_full_front p

theorem PILE_PUSH_BACK_back {α : Type} (p : Pile α) (x : α) :
    (PILE_PUSH_BACK p x).back = (p.back + 1) % ULONG := by
  show ((increase_if_full p).back + 1) % ULONG = _
  rw [increase_if_full_back]

theorem PILE_PUSH_BACK_capacity {α : Type} (p : Pile α) (x : α) :
    (PILE_PUSH_BACK p x).capacity = (increase_if_full p).capacity := rfl

theorem PILE_PUSH_BACK_data {α : Type} (p : Pile α) (x : α) :
    (PILE_PUSH_BACK p x).data = writeSlot (increase_if_full p).data p.back x := by
  show writeSlot (increase_if_full p).data (increase_if_full p).back x = _
  rw [increase_if_full_back]

theorem PILE_PUSH_FRONT_capacity {α : Type} (p : Pile α) (x : α) :
    (PILE_PUSH_FRONT p x).capacity = (increase_if_full p).capacity := by
  unfold PILE_PUSH_FRONT
  by_cases h : (increase_if_full p).front = 0 <;> simp [h]

theorem PILE_PUSH_FRONT_front {α : Type} (p : Pile α) (x : α) :
    (PILE_PUSH_FRONT p x).front
      = if p.front = 0 then ((0 + (increase_if_full p).capacity) % ULONG + ULONG - 1) % ULONG
        else (p.front + ULONG - 1) % ULONG := by
  unfold PILE_PUSH_FRONT
  by_cases h : p.front = 0 <;> simp [h, increase_if_full_front]

theorem PILE_PUSH_FRONT_back {α : Type} (p : Pile α) (x : α) :
    (PILE_PUSH_FRONT p x).back
      = if p.front = 0 then (p.back + (increase_if_full p).capacity) % ULONG else p.back := by
  unfold PILE_PUSH_FRONT
  by_cases h : p.front = 0 <;> simp [h, increase_if_full_front, increase_if_full_back]

theorem PILE_PUSH_FRONT_data {α : Type} (p : Pile α) (x : α) :
    (PILE_PUSH_FRONT p x).data
      = writeSlot (increase_if_full p).data (PILE_PUSH_FRONT p x).front x := by
  unfold PILE_PUSH_FRONT
  by_cases h : (increase_if_full p).front = 0 <;> simp [h]

theorem shrink_to_fit_capacity {α : Type} (p : Pile α) : (shrink_to_fit p).capacity = PILE_LENGTH p := rfl

theorem shrink_to_fit_front {α : Type} (p : Pile α) :
    (shrink_to_fit p).front
      = if p.back > p.capacity then (p.back + ULONG - p.capacity) % ULONG else p.front := rfl

theorem shrink_to_fit_back {α : Type} (p : Pile α) :
    (shrink_to_fit p).back = ((shrink_to_fit p).front + PILE_LENGTH p) % ULONG := rfl

theorem PILE_LENGTH_lt {α : Type} (p : Pile α) : PILE_LENGTH p < ULONG :=
  Nat.mod_lt _ (by unfold ULONG; omega)


theorem increase_if_full_capacity_lt {α : Type} (p : Pile α) (hp : p.InRange) :
    (increase_if_full p).capacity < ULONG := by
  rw [increase_if_full_capacity]
  obtain ⟨hc, -, -⟩ := hp
  unfold ULONG at *
  split <;> omega

theorem increase_if_full_InRange {α : Type} (p : Pile α) (hp : p.InRange) :
    (increase_if_full p).InRange := by
  refine ⟨increase_if_full_capacity_lt p hp, ?_, ?_⟩
  · rw [increase_if_full_front]; exact hp.2.1
  · rw [increase_if_full_back]; exact hp.2.2

theorem increase_if_full_length {α : Type} (p : Pile α) :
    PILE_LENGTH (increase_if_full p) = PILE_LENGTH p := by
  unfold PILE_LENGTH
  rw [increase_if_full_front, increase_if_full_back]

theorem PILE_PUSH_BACK_InRange {α : Type} (p : Pile α) (hp : p.InRange) (x : α) :
    (PILE_PUSH_BACK p x).InRange := by
  refine ⟨?_, ?_, ?_⟩
  · rw [PILE_PUSH_BACK_capacity]; exact increase_if_full_capacity_lt p hp
  · rw [PILE_PUSH_BACK_front]; exact hp.2.1
  · rw [PILE_PUSH_BACK_back]; exact Nat.mod_lt _ (by unfold ULONG; omega)

theorem PILE_PUSH_BACK_length {α : Type} (p : Pile α) (hp : p.InRange) (x : α) :
    PILE_LENGTH (PILE_PUSH_BACK p x) = (PILE_LENGTH p + 1) % ULONG := by
  unfold PILE_LENGTH
  rw [PILE_PUSH_BACK_front, PILE_PUSH_BACK_back]
  obtain ⟨-, hf, hb⟩ := hp
  unfold ULONG at *
  omega

theorem PILE_PUSH_FRONT_InRange {α : Type} (p : Pile α) (hp : p.InRange) (x : α) :
    (PILE_PUSH_FRONT p x).InRange := by
  have hW : 0 < ULONG := by unfold ULONG; omega
  refine ⟨?_, ?_, ?_⟩
  · rw [PILE_PUSH_FRONT_capacity]; exact increase_if_full_capacity_lt p hp
  · rw [PILE_PUSH_FRONT_front]; split <;> exact Nat.mod_lt _ hW
  · rw [PILE_PUSH_FRONT_back]; split
    · exact Nat.mod_lt _ hW
    · exact hp.2.2

theorem PILE_PUSH_FRONT_length {α : Type} (p : Pile α) (hp : p.InRange) (x : α) :
    PILE_LENGTH (PILE_PUSH_FRONT p x) = (PILE_LENGTH p + 1) % ULONG := by
  unfold PILE_LENGTH
  rw [PILE_PUSH_FRONT_front, PILE_PUSH_FRONT_back]
  have hc := increase_if_full_capacity_lt p hp
  obtain ⟨-, hf, hb⟩ := hp
  generalize (increase_if_full p).capacity = c at hc
  unfold ULONG at *
  split <;> omega

theorem shrink_to_fit_InRange {α : Type} (p : Pile α) (hp : p.InRange) : (shrink_to_fit p).InRange := by
  have hW : 0 < ULONG := by unfold ULONG; omega
  refine ⟨PILE_LENGTH_lt p, ?_, ?_⟩
  · rw [shrink_to_fit_front]; split
    · exact Nat.mod_lt _ hW
    · exact hp.2.1
  · rw [shrink_to_fit_back]; exact Nat.mod_lt _ hW

theorem shrink_to_fit_length {α : Type} (p : Pile α) (hp : p.InRange) :
    PILE_LENGTH (shrink_to_fit p) = PILE_LENGTH p := by
  have h1 := shrink_to_fit_InRange p hp
  have h2 := PILE_LENGTH_lt p
  have h3 := shrink_to_fit_back p
  generalize hL : PILE_LENGTH p = L at *
  unfold PILE_LENGTH
  obtain ⟨-, hf, hb⟩ := h1
  rw [h3]
  unfold ULONG at *
  omega


theorem PILE_POP_BACK_step {α : Type} (p q : Pile α) (x : α) (hp : p.InRange)
    (h : PILE_POP_BACK p = .value x q) :
    q.InRange ∧ (PILE_LENGTH q + 1) % ULONG = PILE_LENGTH p := by
  rw [PILE_POP_BACK_eq] at h
  have hL := PILE_LENGTH_lt p
  obtain ⟨hc, hf, hb⟩ := hp
  split at h
  · cases h
  · split at h
    · cases h
    · injection h with hx hq
      subst hq
      unfold Pile.InRange PILE_LENGTH at *
      simp only
      unfold ULONG at *
      omega

theorem PILE_POP_FRONT_step {α : Type} (p q : Pile α) (x : α) (hp : p.InRange)
    (h : PILE_POP_FRONT p = .value x q) :
    q.InRange ∧ (PILE_LENGTH q + 1) % ULONG = PILE_LENGTH p := by
  rw [PILE_POP_FRONT_eq] at h
  have hL := PILE_LENGTH_lt p
  obtain ⟨hc, hf, hb⟩ := hp
  split at h
  · cases h
  · split at h
    · split at h
      · cases h
      · injection h with hx hq
        subst hq
        unfold Pile.InRange PILE_LENGTH at *
        simp only
        unfold ULONG at *
        omega
    · split at h
      · cases h
      · injection h with hx hq
        subst hq
        unfold Pile.InRange PILE_LENGTH at *
        simp only
        unfold ULONG at *
        omega


theorem PopResult.toOption_eq_some {α : Type} (r : PopResult α) (out : Option α) (q : Pile α)
    (h : r.toOption = some (out, q)) : ∃ x, out = some x ∧ r = .value x q := by
  cases r with
  | value x p =>
    simp only [PopResult.toOption, Option.some.injEq, Prod.mk.injEq] at h
    exact ⟨x, h.1.symm, by rw [h.2]⟩
  | underflow p => simp [PopResult.toOption] at h
  | divByZero p => simp [PopResult.toOption] at h

theorem step_length {α : Type} (p q : Pile α) (hp : p.InRange) (op : Op α) (out : Option α)
    (h : step p op = some (out, q)) :
    q.InRange ∧ (PILE_LENGTH q + pops [op]) % ULONG = (PILE_LENGTH p + pushes [op]) % ULONG := by
  have hLp := PILE_LENGTH_lt p
  have hLq := PILE_LENGTH_lt q
  cases op with
  | push_back x =>
    simp only [step, Option.some.injEq, Prod.mk.injEq] at h
    obtain ⟨-, rfl⟩ := h
    refine ⟨PILE_PUSH_BACK_InRange p hp x, ?_⟩
    rw [PILE_PUSH_BACK_length p hp x]
    simp [pops, pushes]
  | push_front x =>
    simp only [step, Option.some.injEq, Prod.mk.injEq] at h
    obtain ⟨-, rfl⟩ := h
    refine ⟨PILE_PUSH_FRONT_InRange p hp x, ?_⟩
    rw [PILE_PUSH_FRONT_length p hp x]
    simp [pops, pushes]
  | pop_back =>
    obtain ⟨x, -, hx⟩ := PopResult.toOption_eq_some _ _ _ h
    obtain ⟨h1, h2⟩ := PILE_POP_BACK_step p q x hp hx
    exact ⟨h1, by simp [pops, pushes, h2, Nat.mod_eq_of_lt hLp]⟩
  | pop_front =>
    obtain ⟨x, -, hx⟩ := PopResult.toOption_eq_some _ _ _ h
    obtain ⟨h1, h2⟩ := PILE_POP_FRONT_step p q x hp hx
    exact ⟨h1, by simp [pops, pushes, h2, Nat.mod_eq_of_lt hLp]⟩
  | shrink_to_fit =>
    simp only [step, Option.some.injEq, Prod.mk.injEq] at h
    obtain ⟨-, rfl⟩ := h
    exact ⟨shrink_to_fit_InRange p hp, by simp [pops, pushes, shrink_to_fit_length p hp]⟩
  | increase_if_full =>
    simp only [step, Option.some.injEq, Prod.mk.injEq] at h
    obtain ⟨-, rfl⟩ := h
    exact ⟨increase_if_full_InRange p hp, by simp [pops, pushes, increase_if_full_length p]⟩

theorem pushes_cons {α : Type} (op : Op α) (ops : List (Op α)) :
    pushes (op :: ops) = pushes [op] + pushes ops := by
  cases op <;> simp [pushes] <;> omega

theorem pops_cons {α : Type} (op : Op α) (ops : List (Op α)) :
    pops (op :: ops) = pops [op] + pops ops := by
  cases op <;> simp [pops] <;> omega

theorem runOps_cons_eq_some {α : Type} (op : Op α) (ops : List (Op α)) (p r : Pile α) (outs : List α)
    (h : runOps (op :: ops) p = some (outs, r)) :
    ∃ out q outs1, step p op = some (out, q) ∧ runOps ops q = some (outs1, r)
      ∧ outs = out.toList ++ outs1 := by
  unfold runOps at h
  split at h
  · cases h
  · rename_i out q hstep
    split at h
    · cases h
    · rename_i outs1 r1 hrun
      simp only [Option.some.injEq, Prod.mk.injEq] at h
      obtain ⟨h1, h2⟩ := h
      subst h2
      exact ⟨out, q, outs1, hstep, hrun, h1.symm⟩

theorem runOps_length {α : Type} (ops : List (Op α)) :
    ∀ (p r : Pile α) (outs : List α), p.InRange → runOps ops p = some (outs, r) →
      r.InRange ∧ (PILE_LENGTH r + pops ops) % ULONG = (PILE_LENGTH p + pushes ops) % ULONG := by
  induction ops with
  | nil =>
    intro p r outs hp h
    simp only [runOps, Option.some.injEq, Prod.mk.injEq] at h
    obtain ⟨-, rfl⟩ := h
    exact ⟨hp, rfl⟩
  | cons op ops ih =>
    intro p r outs hp h
    obtain ⟨out, q, outs1, hstep, hrun, -⟩ := runOps_cons_eq_some op ops p r outs h
    obtain ⟨hq, h1⟩ := step_length p q hp op out hstep
    obtain ⟨hr, h2⟩ := ih q r outs1 hq hrun
    refine ⟨hr, ?_⟩
    rw [pushes_cons, pops_cons]
    unfold ULONG at *
    omega

/-- C2: for every pile (fields in `unsigned long` range) and every sequence of calls
(push_back, push_front, pop_back, pop_front, shrink_to_fit, increase_if_full) in which
every pop returns, `PILE_LENGTH` afterwards is the initial `PILE_LENGTH` plus the number
of pushes minus the number of pops, modulo `2 ^ 64`. -/
theorem C2_length_is_pushes_minus_pops {α : Type} (p r : Pile α) (ops : List (Op α)) (outs : List α)
    (hp : p.InRange) (h : runOps ops p = some (outs, r)) :
    (PILE_LENGTH r : Int)
      = ((PILE_LENGTH p : Int) + (pushes ops : Int) - (pops ops : Int)) % (ULONG : Int) := by
  obtain ⟨-, h1⟩ := runOps_length ops p r outs hp h
  have h2 := PILE_LENGTH_lt r
  unfold ULONG at *
  omega


theorem increase_if_full_capacity_bounds {α : Type} (p : Pile α) (hc : p.capacity < 2 ^ 63) :
    p.capacity ≤ (increase_if_full p).capacity
      ∧ (increase_if_full p).capacity ≤ 2 * p.capacity := by
  rw [increase_if_full_capacity]
  unfold ULONG
  split <;> omega

theorem writeSlot_same {α : Type} (m : Nat → α) (i : Nat) (x : α) : writeSlot m i x i = x := by
  simp [writeSlot]

/-- The round trip at the front where the program stays inside its region: for every pile
satisfying the documented invariants with `capacity < 2 ^ 63`, whose capacity after the
growth check is at most `2 ^ 63` and whose region then holds every slot below that
capacity (a pile that is not full, or one of one-byte elements), `PILE_PUSH_FRONT(p, x)`
stores inside the region, and the `PILE_POP_FRONT(p)` that follows returns `x` and leaves
`PILE_LENGTH` as it was before the push. -/
theorem push_front_pop_front_roundtrip {α : Type} (p : Pile α) (x : α) (hp : p.InRange)
    (hdoc : p.Documented) (hcap : p.capacity < 2 ^ 63)
    (hgrow : (increase_if_full p).capacity ≤ 2 ^ 63) (hreg : (increase_if_full p).Stored) :
    ((PILE_PUSH_FRONT p x).front + 1) * (increase_if_full p).dsize ≤ (increase_if_full p).alloc
      ∧ (PILE_POP_FRONT (PILE_PUSH_FRONT p x)).val? = some x
      ∧ PILE_LENGTH (PILE_POP_FRONT (PILE_PUSH_FRONT p x)).state = PILE_LENGTH p := by
  obtain ⟨hpos, hfc, hlen⟩ := hdoc
  obtain ⟨hb1, hb2⟩ := increase_if_full_capacity_bounds p hcap
  have hL := PILE_PUSH_FRONT_length p hp x
  have hcq := PILE_PUSH_FRONT_capacity p x
  have hfq := PILE_PUSH_FRONT_front p x
  have hbq := PILE_PUSH_FRONT_back p x
  have hdq := PILE_PUSH_FRONT_data p x
  obtain ⟨-, hf, hb⟩ := hp
  unfold Pile.Stored at hreg
  generalize (increase_if_full p).capacity = c at *
  generalize (increase_if_full p).data = m at *
  generalize (increase_if_full p).dsize = d at *
  generalize (increase_if_full p).alloc = a at *
  generalize PILE_PUSH_FRONT p x = q at *
  rw [PILE_POP_FRONT_eq]
  have hne : PILE_LENGTH q ≠ 0 := by
    rw [hL]; unfold ULONG; omega
  have hc0 : q.capacity ≠ 0 := by omega
  rw [if_neg hne]
  by_cases h0 : p.front = 0
  · rw [if_pos h0] at hfq hbq
    have hfq2 : q.front = c - 1 := by rw [hfq]; unfold ULONG; omega
    have hrel : (q.front + 1) % ULONG = q.capacity := by
      rw [hfq2, hcq]; unfold ULONG; omega
    rw [if_pos hrel, if_neg hc0]
    have hslot : ((ULONG - 1 + q.capacity) % ULONG) % q.capacity = q.front := by
      have h1 : (ULONG - 1 + q.capacity) % ULONG = c - 1 := by
        rw [hcq]; unfold ULONG; omega
      rw [h1, hcq, hfq2]
      exact Nat.mod_eq_of_lt (by omega)
    refine ⟨?_, ?_, ?_⟩
    · rw [hfq2]
      exact Nat.le_trans (Nat.mul_le_mul_right d (by omega)) hreg
    · simp only [PopResult.val?]
      rw [hslot, hdq, writeSlot_same]
    · simp only [PopResult.state]
      unfold PILE_LENGTH
      simp only
      rw [hbq, hcq, h0]
      unfold ULONG at *
      omega
  · rw [if_neg h0] at hfq hbq
    have hfq2 : q.front = p.front - 1 := by rw [hfq]; unfold ULONG at *; omega
    have hrel : ¬ (q.front + 1) % ULONG = q.capacity := by
      rw [hfq2, hcq]; unfold ULONG at *; omega
    rw [if_neg hrel, if_neg hc0]
    have hslot : ((q.front + q.capacity) % ULONG) % q.capacity = q.front := by
      have h1 : (q.front + q.capacity) % ULONG = q.front + q.capacity := by
        rw [hcq, hfq2]; unfold ULONG at *; omega
      rw [h1, Nat.add_mod_right]
      exact Nat.mod_eq_of_lt (by omega)
    refine ⟨?_, ?_, ?_⟩
    · rw [hfq2]
      exact Nat.le_trans (Nat.mul_le_mul_right d (by omega)) hreg
    · simp only [PopResult.val?]
      rw [hslot, hdq, writeSlot_same]
    · simp only [PopResult.state]
      unfold PILE_LENGTH
      simp only
      rw [hbq, hfq2]
      unfold ULONG at *
      omega


theorem increase_if_full_alloc {α : Type} (p : Pile α) :
    (increase_if_full p).alloc
      = if isFull p = true then (p.capacity * 2) % ULONG else p.alloc := by
  unfold increase_if_full; split <;> rfl

theorem increase_if_full_dsize_eq {α : Type} (p : Pile α) :
    (increase_if_full p).dsize = p.dsize := by
  unfold increase_if_full; split <;> rfl

/-- Growth of a pile of one-byte elements, the case in which the region follows the
capacity: for every full pile (`back = front + capacity`) with `dsize = 1`,
`front < capacity` and `capacity < 2 ^ 63`, `increase_if_full` keeps `front` and `back`,
doubles `capacity`, leaves a region of `capacity` bytes, and every logical index `i` of
`[front, back)`, stored at slot `i mod capacity` before, is stored afterwards at slot
`i mod (2 * capacity)`, which is slot `i` itself and lies inside the region. -/
theorem growth_keeps_elements_of_one_byte {α : Type} (p : Pile α) (hp : p.InRange)
    (hbyte : p.dsize = 1) (hcap : p.capacity < 2 ^ 63) (hfront : p.front < p.capacity)
    (hfull : p.back = p.front + p.capacity) :
    (increase_if_full p).front = p.front
      ∧ (increase_if_full p).back = p.back
      ∧ (increase_if_full p).capacity = 2 * p.capacity
      ∧ (increase_if_full p).Stored
      ∧ ∀ i, p.front ≤ i → i < p.back →
          i % (2 * p.capacity) = i
            ∧ (i + 1) * (increase_if_full p).dsize ≤ (increase_if_full p).alloc
            ∧ (increase_if_full p).data (i % (2 * p.capacity)) = p.data (i % p.capacity) := by
  obtain ⟨hc, hf, hb⟩ := hp
  have hfl : isFull p = true := by
    rw [isFull_iff, hfull]
    exact (Nat.mod_eq_of_lt (by omega)).symm
  have hlen : PILE_LENGTH p = p.capacity := by
    unfold PILE_LENGTH
    unfold ULONG at *
    omega
  have hc2 : (increase_if_full p).capacity = 2 * p.capacity := by
    rw [increase_if_full_capacity, if_pos hfl]; unfold ULONG; omega
  have ha2 : (increase_if_full p).alloc = 2 * p.capacity := by
    rw [increase_if_full_alloc, if_pos hfl]; unfold ULONG; omega
  have hd2 : (increase_if_full p).dsize = 1 := by
    rw [increase_if_full_dsize_eq, hbyte]
  refine ⟨increase_if_full_front p, increase_if_full_back p, hc2, ?_, ?_⟩
  · unfold Pile.Stored
    rw [hc2, ha2, hd2]; omega
  · intro i hi1 hi2
    have hi : i % (2 * p.capacity) = i := Nat.mod_eq_of_lt (by omega)
    refine ⟨hi, by rw [ha2, hd2]; omega, ?_⟩
    rw [hi, increase_if_full_data, if_pos hfl, hlen]
    unfold copySlots
    by_cases hic : p.capacity ≤ i
    · have h1 : p.capacity ≤ i ∧ i < p.capacity + p.front := ⟨hic, by omega⟩
      rw [if_pos h1]
      have h2 : i % p.capacity = i - p.capacity := by
        rw [Nat.mod_eq_sub_mod hic]
        exact Nat.mod_eq_of_lt (by omega)
      rw [h2, Nat.add_zero]
    · have h1 : ¬ (p.capacity ≤ i ∧ i < p.capacity + p.front) := fun h => hic h.1
      rw [if_neg h1, Nat.mod_eq_of_lt (by omega)]

/-- C8: for every pile, after `shrink_to_fit` the value of `PILE_LENGTH` is unchanged,
`capacity` equals it, `back == front + capacity` holds in `unsigned long` arithmetic, and
the next `increase_if_full` takes its growth branch. -/
theorem C8_shrink_to_fit_leaves_pile_full {α : Type} (p : Pile α) (hp : p.InRange) :
    PILE_LENGTH (shrink_to_fit p) = PILE_LENGTH p
      ∧ (shrink_to_fit p).capacity = PILE_LENGTH p
      ∧ (shrink_to_fit p).back
          = ((shrink_to_fit p).front + (shrink_to_fit p).capacity) % ULONG
      ∧ isFull (shrink_to_fit p) = true
      ∧ (increase_if_full (shrink_to_fit p)).capacity
          = (PILE_LENGTH p * __PILE_EXPONENT__) % ULONG := by
  have hfull : isFull (shrink_to_fit p) = true := by
    rw [isFull_iff, shrink_to_fit_capacity]
    exact shrink_to_fit_back p
  refine ⟨shrink_to_fit_length p hp, rfl, ?_, hfull, ?_⟩
  · rw [shrink_to_fit_capacity]
    exact shrink_to_fit_back p
  · rw [increase_if_full_capacity, if_pos hfull, shrink_to_fit_capacity]; rfl

theorem throw_error_iff {α : Type} (p q : Pile α) (b : Bool) :
    __throw_if_empty_and_handle_pop_front_wrapping__ p b = .error q
      ↔ PILE_LENGTH p = 0 ∧ q = p := by
  unfold __throw_if_empty_and_handle_pop_front_wrapping__
  by_cases h : PILE_LENGTH p = 0
  · simp only [h, if_true, true_and]
    constructor
    · intro h1; injection h1 with h1; exact h1.symm
    · intro h1; rw [h1]
  · rw [if_neg h]
    split <;> simp [h]

/-- C9: `PILE_POP_BACK` and `PILE_POP_FRONT` end in the underflow exit exactly when
`PILE_LENGTH` is zero, and the state at that exit is the state the pop was called on
(nothing has been written); the same holds of the helper
`__throw_if_empty_and_handle_pop_front_wrapping__` they share. -/
theorem C9_underflow_iff_empty {α : Type} (p q : Pile α) :
    (PILE_POP_BACK p = .underflow q ↔ PILE_LENGTH p = 0 ∧ q = p)
      ∧ (PILE_POP_FRONT p = .underflow q ↔ PILE_LENGTH p = 0 ∧ q = p)
      ∧ (∀ b, __throw_if_empty_and_handle_pop_front_wrapping__ p b = .error q
            ↔ PILE_LENGTH p = 0 ∧ q = p) := by
  refine ⟨?_, ?_, fun b => throw_error_iff p q b⟩
  · rw [PILE_POP_BACK_eq]
    by_cases h : PILE_LENGTH p = 0
    · simp only [h, if_true, true_and]
      constructor
      · intro h1; injection h1 with h1; exact h1.symm
      · intro h1; rw [h1]
    · rw [if_neg h]
      split <;> simp [h]
  · rw [PILE_POP_FRONT_eq]
    by_cases h : PILE_LENGTH p = 0
    · simp only [h, if_true, true_and]
      constructor
      · intro h1; injection h1 with h1; exact h1.symm
      · intro h1; rw [h1]
    · rw [if_neg h]
      split <;> split <;> simp [h]


theorem runOps_cons_of {α : Type} (op : Op α) (ops : List (Op α)) (p q r : Pile α) (out : Option α)
    (outs : List α) (h1 : step p op = some (out, q)) (h2 : runOps ops q = some (outs, r)) :
    runOps (op :: ops) p = some (out.toList ++ outs, r) := by
  simp [runOps, h1, h2]

theorem runOps_pop_front_all {α : Type} (k : Nat) :
    ∀ p : Pile α, p.front + k = p.back → p.back ≤ p.capacity → p.capacity ≤ 2 ^ 63 →
      ∃ q, runOps (List.replicate k .pop_front) p
            = some ((List.range' p.front k).map p.data, q)
          ∧ PILE_LENGTH q = 0 := by
  induction k with
  | zero =>
    intro p h1 h2 h3
    refine ⟨p, rfl, ?_⟩
    unfold PILE_LENGTH
    unfold ULONG
    omega
  | succ k ih =>
    intro p h1 h2 h3
    have hlen : PILE_LENGTH p ≠ 0 := by
      unfold PILE_LENGTH
      unfold ULONG
      omega
    have hc0 : p.capacity ≠ 0 := by omega
    have hpop := PILE_POP_FRONT_eq p
    rw [if_neg hlen] at hpop
    by_cases hrel : (p.front + 1) % ULONG = p.capacity
    · rw [if_pos hrel, if_neg hc0] at hpop
      have hfc : p.front + 1 = p.capacity := by
        unfold ULONG at hrel
        omega
      have hk : k = 0 := by omega
      subst hk
      have hslot : ((ULONG - 1 + p.capacity) % ULONG) % p.capacity = p.front := by
        have : (ULONG - 1 + p.capacity) % ULONG = p.front := by
          unfold ULONG
          omega
        rw [this]
        exact Nat.mod_eq_of_lt (by omega)
      rw [hslot] at hpop
      refine ⟨{ p with front := (ULONG - 1 + 1) % ULONG,
                       back := (p.back + ULONG - p.capacity) % ULONG }, ?_, ?_⟩
      · refine runOps_cons_of .pop_front [] p _ _ (some (p.data p.front)) [] ?_ rfl
        show (PILE_POP_FRONT p).toOption = _
        rw [hpop]
        rfl
      · unfold PILE_LENGTH
        simp only
        unfold ULONG
        omega
    · rw [if_neg hrel, if_neg hc0] at hpop
      have hslot : ((p.front + p.capacity) % ULONG) % p.capacity = p.front := by
        have : (p.front + p.capacity) % ULONG = p.front + p.capacity := by
          unfold ULONG
          omega
        rw [this, Nat.add_mod_right]
        exact Nat.mod_eq_of_lt (by omega)
      have hf1 : (p.front + 1) % ULONG = p.front + 1 := by
        unfold ULONG
        omega
      rw [hslot, hf1] at hpop
      have hne : p.front + 1 ≠ p.capacity := by
        intro h
        exact hrel (by rw [hf1]; exact h)
      obtain ⟨q, hq1, hq2⟩ := ih { p with front := p.front + 1 }
        (by simp only; omega) h2 h3
      refine ⟨q, ?_, hq2⟩
      have := runOps_cons_of .pop_front (List.replicate k .pop_front) p _ q
        (some (p.data p.front)) _ (by
          show (PILE_POP_FRONT p).toOption = _
          rw [hpop]
          rfl) hq1
      rw [List.replicate_succ, this]
      rfl

theorem MAX_bounds (n : Nat) (hn : n ≤ 2 ^ 63) :
    n ≤ MAX n __PILE_DEFAULT_CAPACITY__ ∧ MAX n __PILE_DEFAULT_CAPACITY__ ≤ 2 ^ 63 := by
  unfold MAX __PILE_DEFAULT_CAPACITY__
  split <;> omega

/-- C10: for every source array `src` of `n` elements (`n <= 2 ^ 63`: no C object is
larger), `INIT_PILE_FROM(dtype, n, src)` has `PILE_LENGTH == n`, `n` calls of
`PILE_POP_FRONT` all return and yield `src[0], ..., src[n-1]` in that order, and the
next `PILE_POP_FRONT` ends in the underflow exit. -/
theorem C10_init_from_pops_in_order {α : Type} (dsize n : Nat) (src heap : Nat → α) (hn : n ≤ 2 ^ 63) :
    PILE_LENGTH (INIT_PILE_FROM dsize n src heap) = n
      ∧ ∃ q, runOps (List.replicate n .pop_front) (INIT_PILE_FROM dsize n src heap)
            = some ((List.range n).map src, q)
          ∧ PILE_POP_FRONT q = .underflow q := by
  obtain ⟨hm1, hm2⟩ := MAX_bounds n hn
  refine ⟨?_, ?_⟩
  · show (n + ULONG - 0) % ULONG = n
    unfold ULONG
    omega
  · obtain ⟨q, hq1, hq2⟩ := runOps_pop_front_all n (INIT_PILE_FROM dsize n src heap)
      (by show 0 + n = n; omega) hm1 hm2
    refine ⟨q, ?_, ?_⟩
    · rw [hq1]
      have : (List.range' (INIT_PILE_FROM dsize n src heap).front n).map
            (INIT_PILE_FROM dsize n src heap).data = (List.range n).map src := by
        show (List.range' 0 n).map (copySlots heap 0 src 0 n) = _
        rw [List.range_eq_range']
        apply List.map_congr_left
        intro j hj
        rw [List.mem_range'_1] at hj
        unfold copySlots
        rw [if_pos ⟨hj.1, by omega⟩]
        simp
      rw [this]
    · rw [PILE_POP_FRONT_eq, if_pos hq2]


/-! Evaluations at concrete inputs. -/

set_option maxRecDepth 100000 in
/-- C1, evaluated at the failing input: on `INIT_PILE(int)`, after `PILE_PUSH_FRONT 1` and
`PILE_PUSH_BACK 2` the call `PILE_POP_BACK` returns `100`, the initial content of slot 0
of the fresh region, where the reference deque returns the pushed `2`; and ten rounds of
`push_front, push_back` (values 1 to 20) read back by twenty `PILE_POP_FRONT` do not
return the reference deque's sequence. -/
theorem C1_pops_diverge_from_reference_deque :
    (runOps [.push_front 1, .push_back 2, .pop_back] (INIT_PILE 4 junk)).map Prod.fst
        = some [100]
      ∧ (refOps [.push_front 1, .push_back 2, .pop_back] ([] : List Nat)).map Prod.fst
        = some [2]
      ∧ (runOps (alternating 10 1 ++ List.replicate 20 .pop_front)
            (INIT_PILE 4 junk)).map Prod.fst
        = some [19, 17, 15, 13, 11, 9, 7, 5, 3, 1, 100, 101, 102, 103, 10, 12, 14, 16,
            116, 117]
      ∧ (refOps (alternating 10 1 ++ List.replicate 20 .pop_front) ([] : List Nat)).map
            Prod.fst
        = some [19, 17, 15, 13, 11, 9, 7, 5, 3, 1, 2, 4, 6, 8, 10, 12, 14, 16, 18, 20] := by
  refine ⟨?_, ?_, ?_, ?_⟩ <;> decide

/-- C2, witness: the five calls of `demoOps` on `INIT_PILE(int)` all return, and the
length afterwards is `0 + 2 - 2`. -/
theorem C2_length_witness :
    (INIT_PILE 4 junk).InRange
      ∧ runOps demoOps (INIT_PILE 4 junk) = some ([0, 1], demoFinal)
      ∧ (PILE_LENGTH demoFinal : Int)
          = ((PILE_LENGTH (INIT_PILE 4 junk) : Int) + (pushes demoOps : Int)
              - (pops demoOps : Int)) % (ULONG : Int) :=
  have hr : (INIT_PILE 4 junk).InRange := by unfold Pile.InRange; decide
  have hrun : runOps demoOps (INIT_PILE 4 junk) = some ([0, 1], demoFinal) := rfl
  ⟨hr, hrun, C2_length_is_pushes_minus_pops _ _ _ _ hr hrun⟩

/-- C3, evaluated at the failing input: the pile `frontPushed` (capacity 8, front 7,
back 8) satisfies the documented invariants; `PILE_PUSH_BACK` of `1` does not grow it and
stores at slot 8, which is not below the capacity 8, and the `PILE_POP_BACK` that follows
reads slot 0 and returns its initial content `100`, not the pushed `1`. -/
theorem C3_push_back_pop_back_reads_slot_zero :
    frontPushed.Documented
      ∧ (increase_if_full frontPushed).back = 8
      ∧ (increase_if_full frontPushed).capacity = 8
      ∧ ((PILE_PUSH_BACK frontPushed 1).back + ULONG - 1) % ULONG
          % (PILE_PUSH_BACK frontPushed 1).capacity = 0
      ∧ (PILE_POP_BACK (PILE_PUSH_BACK frontPushed 1)).val? = some 100
      ∧ junk 0 = 100 := by
  refine ⟨?_, ?_, ?_, ?_, ?_, ?_⟩
  · unfold Pile.Documented; decide
  all_goals decide

/-- C6, evaluated at the failing input: `tailPile` is what five `PILE_POP_FRONT` leave of
`INIT_PILE_FROM(int, 7, sample)`; it satisfies the documented invariants and holds
`15, 16` front to back; after `shrink_to_fit` the front-to-back contents are `13, 12`,
and those are the values the next two `PILE_POP_FRONT` return. -/
theorem C6_shrink_to_fit_changes_order :
    tailPile.Documented
      ∧ (runOps (List.replicate 5 .pop_front) (INIT_PILE_FROM 4 7 sample junk)).map
          (fun r => (r.1, r.2.capacity, r.2.front, r.2.back, contents r.2))
        = some ([10, 11, 12, 13, 14], 8, 5, 7, [15, 16])
      ∧ contents tailPile = [15, 16]
      ∧ contents (shrink_to_fit tailPile) = [13, 12]
      ∧ (runOps [.shrink_to_fit, .pop_front, .pop_front] tailPile).map Prod.fst
        = some [13, 12]
      ∧ (refOps [.shrink_to_fit, .pop_front, .pop_front] [15, 16]).map Prod.fst
        = some [15, 16] := by
  refine ⟨?_, ?_, ?_, ?_, ?_, ?_⟩
  · unfold Pile.Documented; decide
  all_goals decide

/-- C7, evaluated at the failing input: the first `shrink_to_fit` of `tailPile` leaves
capacity 2, front 5, back 7; the `memmove` of the second call is from slot 5 to slot 5
with a count of `2 ^ 64 - 3` elements, far outside the buffer. -/
theorem C7_second_shrink_moves_out_of_range :
    tailPile.Documented
      ∧ ((shrink_to_fit tailPile).capacity, (shrink_to_fit tailPile).front,
          (shrink_to_fit tailPile).back) = (2, 5, 7)
      ∧ shrinkMove (shrink_to_fit tailPile) = (5, 5, 2 ^ 64 - 3)
      ∧ ¬ ((shrinkMove (shrink_to_fit tailPile)).2.1 + (shrinkMove (shrink_to_fit tailPile)).2.2
            ≤ (shrink_to_fit tailPile).capacity) := by
  refine ⟨?_, ?_, ?_, ?_⟩
  · unfold Pile.Documented; decide
  all_goals decide

/-- C8, witness: `shrink_to_fit` on `frontPushed` (one element, capacity 8) leaves a full
pile of capacity 1 that grows at the next `increase_if_full`. -/
theorem C8_full_witness :
    PILE_LENGTH (shrink_to_fit frontPushed) = PILE_LENGTH frontPushed
      ∧ (shrink_to_fit frontPushed).capacity = PILE_LENGTH frontPushed
      ∧ (shrink_to_fit frontPushed).back
          = ((shrink_to_fit frontPushed).front + (shrink_to_fit frontPushed).capacity) % ULONG
      ∧ isFull (shrink_to_fit frontPushed) = true
      ∧ (increase_if_full (shrink_to_fit frontPushed)).capacity
          = (PILE_LENGTH frontPushed * __PILE_EXPONENT__) % ULONG :=
  C8_shrink_to_fit_leaves_pile_full frontPushed (by unfold Pile.InRange; decide)

/-- C10, witness: the spec's instance, a source array of 10 integers. -/
theorem C10_ten_elements_witness :
    PILE_LENGTH (INIT_PILE_FROM 4 10 sample junk) = 10
      ∧ ∃ q, runOps (List.replicate 10 .pop_front) (INIT_PILE_FROM 4 10 sample junk)
            = some ((List.range 10).map sample, q)
          ∧ PILE_POP_FRONT q = .underflow q :=
  C10_init_from_pops_in_order 4 10 sample junk (by decide)

/-! Data independence: sending every element through a function commutes with every call. -/

theorem copySlots_map {α β : Type} (f : α → β) (m : Nat → α) (d s n : Nat) :
    copySlots (fun j => f (m j)) d (fun j => f (m j)) s n = fun j => f (copySlots m d m s n j) := by
  funext j
  unfold copySlots
  split <;> rfl

theorem writeSlot_map {α β : Type} (f : α → β) (m : Nat → α) (i : Nat) (x : α) :
    writeSlot (fun j => f (m j)) i (f x) = fun j => f (writeSlot m i x j) := by
  funext j
  unfold writeSlot
  split <;> rfl

theorem increase_if_full_map {α β : Type} (f : α → β) (p : Pile α) :
    increase_if_full (p.map f) = (increase_if_full p).map f := by
  unfold increase_if_full
  have h : isFull (p.map f) = isFull p := rfl
  rw [h]
  by_cases hf : isFull p = true
  · rw [if_pos hf, if_pos hf]
    show Pile.mk _ _ _ _ _ _ = Pile.mk _ _ _ _ _ _
    congr 1
    exact copySlots_map f p.data _ _ _
  · rw [if_neg hf, if_neg hf]

theorem shrink_to_fit_map {α β : Type} (f : α → β) (p : Pile α) :
    shrink_to_fit (p.map f) = (shrink_to_fit p).map f := by
  show Pile.mk _ _ _ _ _ _ = Pile.mk _ _ _ _ _ _
  congr 1
  exact copySlots_map f p.data _ _ _

theorem PILE_PUSH_BACK_map {α β : Type} (f : α → β) (p : Pile α) (x : α) :
    PILE_PUSH_BACK (p.map f) (f x) = (PILE_PUSH_BACK p x).map f := by
  unfold PILE_PUSH_BACK
  rw [increase_if_full_map]
  show Pile.mk _ _ _ _ _ _ = Pile.mk _ _ _ _ _ _
  congr 1
  exact writeSlot_map f _ _ x

theorem PILE_PUSH_FRONT_map {α β : Type} (f : α → β) (p : Pile α) (x : α) :
    PILE_PUSH_FRONT (p.map f) (f x) = (PILE_PUSH_FRONT p x).map f := by
  unfold PILE_PUSH_FRONT
  rw [increase_if_full_map]
  show Pile.mk _ _ _ _ _ _ = Pile.mk _ _ _ _ _ _
  have h0 : ((increase_if_full p).map f).front = (increase_if_full p).front := rfl
  by_cases h : (increase_if_full p).front = 0
  · simp only [h0, h, if_true]
    congr 1
    exact writeSlot_map f _ _ x
  · simp only [h0, h, if_false]
    congr 1
    exact writeSlot_map f _ _ x

theorem PILE_POP_BACK_map {α β : Type} (f : α → β) (p : Pile α) :
    PILE_POP_BACK (p.map f) = (PILE_POP_BACK p).map f := by
  rw [PILE_POP_BACK_eq, PILE_POP_BACK_eq]
  have h1 : PILE_LENGTH (p.map f) = PILE_LENGTH p := rfl
  have h2 : (p.map f).capacity = p.capacity := rfl
  rw [h1, h2]
  split
  · rfl
  · split <;> rfl

theorem PILE_POP_FRONT_map {α β : Type} (f : α → β) (p : Pile α) :
    PILE_POP_FRONT (p.map f) = (PILE_POP_FRONT p).map f := by
  rw [PILE_POP_FRONT_eq, PILE_POP_FRONT_eq]
  have h1 : PILE_LENGTH (p.map f) = PILE_LENGTH p := rfl
  have h2 : (p.map f).capacity = p.capacity := rfl
  have h3 : (p.map f).front = p.front := rfl
  rw [h1, h2, h3]
  split
  · rfl
  · split
    · split <;> rfl
    · split <;> rfl

theorem PopResult.toOption_map {α β : Type} (f : α → β) (r : PopResult α) :
    (r.map f).toOption = r.toOption.map fun o => (o.1.map f, o.2.map f) := by
  cases r <;> rfl

theorem step_map {α β : Type} (f : α → β) (p : Pile α) (op : Op α) :
    step (p.map f) (op.map f) = (step p op).map fun o => (o.1.map f, o.2.map f) := by
  cases op with
  | push_back x => show some _ = some _; rw [PILE_PUSH_BACK_map]; rfl
  | push_front x => show some _ = some _; rw [PILE_PUSH_FRONT_map]; rfl
  | pop_back =>
    show (PILE_POP_BACK (p.map f)).toOption = _
    rw [PILE_POP_BACK_map, PopResult.toOption_map]; rfl
  | pop_front =>
    show (PILE_POP_FRONT (p.map f)).toOption = _
    rw [PILE_POP_FRONT_map, PopResult.toOption_map]; rfl
  | shrink_to_fit => show some _ = some _; rw [shrink_to_fit_map]; rfl
  | increase_if_full => show some _ = some _; rw [increase_if_full_map]; rfl

theorem runOps_map {α β : Type} (f : α → β) (ops : List (Op α)) :
    ∀ p : Pile α, runOps (ops.map (Op.map f)) (p.map f)
      = (runOps ops p).map fun r => (r.1.map f, r.2.map f) := by
  induction ops with
  | nil => intro p; rfl
  | cons op ops ih =>
    intro p
    simp only [List.map_cons, runOps, step_map]
    cases hs : step p op with
    | none => rfl
    | some o =>
      obtain ⟨out, q⟩ := o
      simp only [Option.map_some']
      rw [ih q]
      cases hr : runOps ops q with
      | none => rfl
      | some r =>
        obtain ⟨outs, r⟩ := r
        simp only [Option.map_some', List.map_append]
        cases out <;> rfl

theorem contents_map {α β : Type} (f : α → β) (p : Pile α) :
    contents (p.map f) = (contents p).map f := by
  unfold contents
  rw [List.map_map]
  rfl

theorem accesses_map {α β : Type} (f : α → β) (p : Pile α) (op : Op α) :
    accesses (p.map f) (op.map f) = accesses p op := by
  cases op with
  | push_back x =>
    show growBlocks (p.map f) ++ [((increase_if_full (p.map f)).back, 1,
      (increase_if_full (p.map f)).capacity)] = _
    rw [increase_if_full_map]; rfl
  | push_front x =>
    show growBlocks (p.map f) ++ [(pushFrontIndex (p.map f), 1,
      (increase_if_full (p.map f)).capacity)] = _
    have : pushFrontIndex (p.map f) = pushFrontIndex p := by
      unfold pushFrontIndex
      rw [increase_if_full_map]; rfl
    rw [this, increase_if_full_map]; rfl
  | pop_back => rfl
  | pop_front => rfl
  | shrink_to_fit => rfl
  | increase_if_full => rfl

theorem grownTo_map {α β : Type} (f : α → β) (p : Pile α) (op : Op α) :
    grownTo (p.map f) (op.map f) = grownTo p op := by
  cases op <;> rfl

theorem allAccesses_map {α β : Type} (f : α → β) (ops : List (Op α)) :
    ∀ p : Pile α, allAccesses (ops.map (Op.map f)) (p.map f) = allAccesses ops p := by
  induction ops with
  | nil => intro p; rfl
  | cons op ops ih =>
    intro p
    simp only [List.map_cons, allAccesses, step_map, accesses_map]
    cases hs : step p op with
    | none => rfl
    | some o =>
      obtain ⟨out, q⟩ := o
      simp only [Option.map_some']
      rw [ih q]

theorem allGrowths_map {α β : Type} (f : α → β) (ops : List (Op α)) :
    ∀ p : Pile α, allGrowths (ops.map (Op.map f)) (p.map f) = allGrowths ops p := by
  induction ops with
  | nil => intro p; rfl
  | cons op ops ih =>
    intro p
    simp only [List.map_cons, allGrowths, step_map, grownTo_map]
    cases hs : step p op with
    | none => rfl
    | some o =>
      obtain ⟨out, q⟩ := o
      simp only [Option.map_some']
      rw [ih q]

theorem INIT_PILE_named (dsize : Nat) (heap : Nat → Nat) :
    INIT_PILE dsize heap = (INIT_PILE dsize (Sum.inl : Nat → Nat ⊕ Nat)).map (named heap) := rfl

/-! Refinement of the reference deque by the calls at the front and the pops. -/

theorem Pile.Inv.inRange {α : Type} {p : Pile α} (h : p.Inv) : p.InRange := by
  obtain ⟨h1, h2, h3, h4, h5⟩ := h
  unfold Pile.InRange ULONG
  omega

theorem Pile.Inv.length {α : Type} {p : Pile α} (h : p.Inv) :
    PILE_LENGTH p = p.back - p.front := by
  obtain ⟨h1, h2, h3, h4, h5⟩ := h
  unfold PILE_LENGTH ULONG
  omega

theorem Pile.Inv.documented {α : Type} {p : Pile α} (h : p.Inv) : p.Documented := by
  have hl := h.length
  obtain ⟨h1, h2, h3, h4, h5⟩ := h
  refine ⟨h1, h3, ?_⟩
  rw [hl]
  omega

theorem contents_of_Inv {α : Type} {p : Pile α} (h : p.Inv) :
    contents p
      = (List.range (p.back - p.front)).map fun k => p.data ((p.front + k) % p.capacity) := by
  unfold contents
  rw [h.length]
  apply List.map_congr_left
  intro k hk
  rw [List.mem_range] at hk
  obtain ⟨h1, h2, h3, h4, h5⟩ := h
  have : (p.front + k) % ULONG = p.front + k := Nat.mod_eq_of_lt (by unfold ULONG; omega)
  rw [this]

theorem mod_of_lt_two_mul (i c : Nat) (hi : i < 2 * c) :
    i % c = if i < c then i else i - c := by
  split
  · exact Nat.mod_eq_of_lt ‹_›
  · rw [Nat.mod_eq_sub_mod (by omega)]
    exact Nat.mod_eq_of_lt (by omega)

theorem isFull_of_Inv {α : Type} {p : Pile α} (h : p.Inv) :
    isFull p = true ↔ p.back = p.front + p.capacity := by
  rw [isFull_iff]
  obtain ⟨h1, h2, h3, h4, h5⟩ := h
  unfold ULONG
  omega

theorem growth_preserves {α : Type} (p : Pile α) (hinv : p.Inv)
    (hg : isFull p = true → p.capacity * __PILE_EXPONENT__ ≤ 2 ^ 63) :
    (increase_if_full p).Inv
      ∧ contents (increase_if_full p) = contents p
      ∧ (increase_if_full p).back - (increase_if_full p).front < (increase_if_full p).capacity
      ∧ (∀ b ∈ growBlocks p, b.1 + b.2.1 ≤ b.2.2) := by
  have hfr := increase_if_full_front p
  have hbk := increase_if_full_back p
  have hcp := increase_if_full_capacity p
  have hdt := increase_if_full_data p
  have hlen := hinv.length
  have hfi := isFull_of_Inv hinv
  unfold __PILE_EXPONENT__ at hg
  by_cases hf : isFull p = true
  · have hb := hfi.mp hf
    have hg2 := hg hf
    rw [if_pos hf] at hcp hdt
    have hc2 : (increase_if_full p).capacity = 2 * p.capacity := by
      rw [hcp]; unfold ULONG; omega
    have hq : (increase_if_full p).Inv := by
      obtain ⟨h1, h2, h3, h4, h5⟩ := hinv
      unfold Pile.Inv
      rw [hfr, hbk, hc2]
      omega
    obtain ⟨h1, h2, h3, h4, h5⟩ := hinv
    refine ⟨hq, ?_, ?_, ?_⟩
    · rw [contents_of_Inv hq, contents_of_Inv ⟨h1, h2, h3, h4, h5⟩, hfr, hbk, hc2]
      apply List.map_congr_left
      intro k hk
      rw [List.mem_range] at hk
      rw [hdt, hlen]
      have e1 := mod_of_lt_two_mul (p.front + k) (2 * p.capacity) (by omega)
      have e2 := mod_of_lt_two_mul (p.front + k) p.capacity (by omega)
      rw [e1, e2, if_pos (by omega)]
      unfold copySlots
      by_cases hk2 : p.front + k < p.capacity
      · rw [if_pos hk2, if_neg (by omega)]
      · rw [if_neg hk2, if_pos (by omega)]
        have e3 : p.front + k - (p.back - p.front) + 0 = p.front + k - p.capacity := by omega
        rw [e3]
    · rw [hfr, hbk, hc2]; omega
    · intro b hb2
      unfold growBlocks at hb2
      rw [if_pos hf] at hb2
      have hm : (p.capacity * __PILE_EXPONENT__) % ULONG = 2 * p.capacity := by
        unfold __PILE_EXPONENT__ ULONG; omega
      rw [hm, hlen] at hb2
      simp only [List.mem_cons, List.mem_singleton, List.not_mem_nil, or_false] at hb2
      rcases hb2 with rfl | rfl
      · simp only; omega
      · simp only; omega
  · have hnf : isFull p = false := by simpa using hf
    have hq : increase_if_full p = p := by
      unfold increase_if_full; simp [hnf]
    rw [hq]
    refine ⟨hinv, rfl, ?_, ?_⟩
    · obtain ⟨h1, h2, h3, h4, h5⟩ := hinv
      have : ¬ p.back = p.front + p.capacity := fun h => hf (hfi.mpr h)
      omega
    · intro b hb2
      unfold growBlocks at hb2
      simp [hnf] at hb2

theorem pushFrontIndex_eq {α : Type} (p : Pile α) (x : α) :
    pushFrontIndex p = (PILE_PUSH_FRONT p x).front := by
  unfold pushFrontIndex PILE_PUSH_FRONT
  by_cases h : (increase_if_full p).front = 0 <;> simp [h]

theorem PILE_POP_BACK_reads {α : Type} (p q : Pile α) (x : α)
    (h : PILE_POP_BACK p = .value x q) : x = p.data (popBackIndex p) := by
  rw [PILE_POP_BACK_eq] at h
  unfold popBackIndex
  split at h
  · cases h
  · split at h
    · cases h
    · injection h with hx hq
      exact hx.symm

theorem PILE_POP_FRONT_reads {α : Type} (p q : Pile α) (x : α)
    (h : PILE_POP_FRONT p = .value x q) : x = p.data (popFrontIndex p) := by
  rw [PILE_POP_FRONT_eq] at h
  unfold popFrontIndex
  split at h
  · cases h
  · by_cases hrel : (p.front + 1) % ULONG = p.capacity
    · rw [if_pos hrel] at h
      rw [if_pos hrel]
      split at h
      · cases h
      · injection h with hx hq
        exact hx.symm
    · rw [if_neg hrel] at h
      rw [if_neg hrel]
      split at h
      · cases h
      · injection h with hx hq
        exact hx.symm

theorem growBlocks_of_full {α : Type} (p : Pile α) (h : isFull p = true) :
    (increase_if_full p).data
        = copySlots p.data (PILE_LENGTH p) p.data 0 p.front
      ∧ growBlocks p
        = [(PILE_LENGTH p, p.front, (increase_if_full p).capacity),
           (0, p.front, (increase_if_full p).capacity)] := by
  refine ⟨?_, ?_⟩
  · rw [increase_if_full_data, if_pos h]
  · unfold growBlocks
    rw [if_pos h, increase_if_full_capacity, if_pos h]
    rfl

theorem push_front_preserves {α : Type} (p : Pile α) (x : α) (hinv : p.Inv)
    (hg : isFull p = true → p.capacity * __PILE_EXPONENT__ ≤ 2 ^ 63) :
    (PILE_PUSH_FRONT p x).Inv
      ∧ contents (PILE_PUSH_FRONT p x) = x :: contents p
      ∧ pushFrontIndex p + 1 ≤ (increase_if_full p).capacity := by
  obtain ⟨hq, hcq, hlt, -⟩ := growth_preserves p hinv hg
  have hidx := pushFrontIndex_eq p x
  have hcap := PILE_PUSH_FRONT_capacity p x
  have hfront := PILE_PUSH_FRONT_front p x
  have hback := PILE_PUSH_FRONT_back p x
  have hdata := PILE_PUSH_FRONT_data p x
  have hcq2 := contents_of_Inv hq
  rw [hcq] at hcq2
  rw [hcq2, hidx]
  rw [increase_if_full_front, increase_if_full_back] at hlt
  obtain ⟨q1, q2, q3, q4, q5⟩ := hq
  rw [increase_if_full_front] at q3 q4 q5
  rw [increase_if_full_back] at q4 q5
  simp only [increase_if_full_front, increase_if_full_back]
  generalize (increase_if_full p).capacity = c at *
  generalize (increase_if_full p).data = m at *
  generalize PILE_PUSH_FRONT p x = r at *
  by_cases h0 : p.front = 0
  · rw [if_pos h0] at hfront hback
    have hf : r.front = c - 1 := by rw [hfront]; unfold ULONG; omega
    have hb : r.back = p.back + c := by rw [hback]; unfold ULONG; omega
    have hr : r.Inv := by
      unfold Pile.Inv
      rw [hf, hb, hcap]
      omega
    refine ⟨hr, ?_, by rw [hf]; omega⟩
    rw [contents_of_Inv hr, hf, hb, hcap, hdata, hf]
    have hn : p.back + c - (c - 1) = (p.back - p.front) + 1 := by omega
    rw [hn, List.range_succ_eq_map, List.map_cons, List.map_map, List.cons.injEq]
    refine ⟨?_, ?_⟩
    · have : (c - 1 + 0) % c = c - 1 := Nat.mod_eq_of_lt (by omega)
      rw [this, writeSlot_same]
    · apply List.map_congr_left
      intro k hk
      rw [List.mem_range] at hk
      simp only [Function.comp, Nat.succ_eq_add_one]
      have e1 := mod_of_lt_two_mul (c - 1 + (k + 1)) c (by omega)
      have e2 := mod_of_lt_two_mul (p.front + k) c (by omega)
      rw [e1, e2, if_neg (by omega), if_pos (by omega)]
      unfold writeSlot
      rw [if_neg (by omega)]
      have e3 : c - 1 + (k + 1) - c = p.front + k := by omega
      rw [e3]
  · rw [if_neg h0] at hfront hback
    have hf : r.front = p.front - 1 := by rw [hfront]; unfold ULONG; omega
    have hr : r.Inv := by
      unfold Pile.Inv
      rw [hf, hback, hcap]
      omega
    refine ⟨hr, ?_, by rw [hf]; omega⟩
    rw [contents_of_Inv hr, hf, hback, hcap, hdata, hf]
    have hn : p.back - (p.front - 1) = (p.back - p.front) + 1 := by omega
    rw [hn, List.range_succ_eq_map, List.map_cons, List.map_map, List.cons.injEq]
    refine ⟨?_, ?_⟩
    · have : (p.front - 1 + 0) % c = p.front - 1 := Nat.mod_eq_of_lt (by omega)
      rw [this, writeSlot_same]
    · apply List.map_congr_left
      intro k hk
      rw [List.mem_range] at hk
      simp only [Function.comp, Nat.succ_eq_add_one]
      have e3 : p.front - 1 + (k + 1) = p.front + k := by omega
      rw [e3]
      have e2 := mod_of_lt_two_mul (p.front + k) c (by omega)
      unfold writeSlot
      rw [if_neg]
      rw [e2]
      split <;> omega

theorem pop_front_preserves {α : Type} (p : Pile α) (hinv : p.Inv) (hne : p.front < p.back) :
    ∃ v q, PILE_POP_FRONT p = .value v q ∧ q.Inv ∧ contents p = v :: contents q
      ∧ popFrontIndex p + 1 ≤ p.capacity := by
  have hlen := hinv.length
  have hcp := contents_of_Inv hinv
  obtain ⟨h1, h2, h3, h4, h5⟩ := hinv
  have hl0 : PILE_LENGTH p ≠ 0 := by rw [hlen]; omega
  have hc0 : p.capacity ≠ 0 := by omega
  have hn : p.back - p.front = (p.back - p.front - 1) + 1 := by omega
  rw [PILE_POP_FRONT_eq, if_neg hl0]
  unfold popFrontIndex
  by_cases hrel : (p.front + 1) % ULONG = p.capacity
  · rw [if_pos hrel, if_neg hc0, if_pos hrel]
    have hfc : p.front + 1 = p.capacity := by unfold ULONG at hrel; omega
    have e0 : (ULONG - 1 + p.capacity) % ULONG = p.capacity - 1 := by unfold ULONG; omega
    have e1 : (p.capacity - 1) % p.capacity = p.capacity - 1 := Nat.mod_eq_of_lt (by omega)
    have hq : ({ p with front := (ULONG - 1 + 1) % ULONG,
                        back := (p.back + ULONG - p.capacity) % ULONG } : Pile α).Inv := by
      unfold Pile.Inv
      simp only
      unfold ULONG
      omega
    refine ⟨_, _, rfl, hq, ?_, by rw [e0, e1]; omega⟩
    rw [hcp, contents_of_Inv hq]
    simp only
    have f0 : (ULONG - 1 + 1) % ULONG = 0 := by unfold ULONG; omega
    have b0 : (p.back + ULONG - p.capacity) % ULONG = p.back - p.capacity := by
      unfold ULONG; omega
    rw [f0, b0, e0, e1, hn, List.range_succ_eq_map, List.map_cons, List.map_map,
      List.cons.injEq]
    refine ⟨?_, ?_⟩
    · have : (p.front + 0) % p.capacity = p.capacity - 1 := by
        rw [Nat.add_zero, Nat.mod_eq_of_lt h3]; omega
      rw [this]
    · have hn2 : p.back - p.front - 1 = p.back - p.capacity - 0 := by omega
      rw [hn2]
      apply List.map_congr_left
      intro k hk
      rw [List.mem_range] at hk
      simp only [Function.comp, Nat.succ_eq_add_one]
      have e2 := mod_of_lt_two_mul (p.front + (k + 1)) p.capacity (by omega)
      have e3 := mod_of_lt_two_mul (0 + k) p.capacity (by omega)
      rw [e2, e3, if_neg (by omega), if_pos (by omega)]
      have e4 : p.front + (k + 1) - p.capacity = 0 + k := by omega
      rw [e4]
  · rw [if_neg hrel, if_neg hc0, if_neg hrel]
    have e0 : (p.front + p.capacity) % ULONG = p.front + p.capacity := by unfold ULONG; omega
    have e1 : (p.front + p.capacity) % p.capacity = p.front := by
      rw [Nat.add_mod_right]; exact Nat.mod_eq_of_lt h3
    have f0 : (p.front + 1) % ULONG = p.front + 1 := by unfold ULONG; omega
    have hfc : p.front + 1 ≠ p.capacity := by rw [f0] at hrel; exact hrel
    have hq : ({ p with front := (p.front + 1) % ULONG } : Pile α).Inv := by
      unfold Pile.Inv
      simp only
      rw [f0]
      omega
    refine ⟨_, _, rfl, hq, ?_, by rw [e0, e1]; omega⟩
    rw [hcp, contents_of_Inv hq]
    simp only
    rw [f0, e0, e1, hn, List.range_succ_eq_map, List.map_cons, List.map_map,
      List.cons.injEq]
    refine ⟨?_, ?_⟩
    · have : (p.front + 0) % p.capacity = p.front := by
        rw [Nat.add_zero, Nat.mod_eq_of_lt h3]
      rw [this]
    · have hn2 : p.back - p.front - 1 = p.back - (p.front + 1) := by omega
      rw [hn2]
      apply List.map_congr_left
      intro k hk
      simp only [Function.comp, Nat.succ_eq_add_one]
      have e4 : p.front + (k + 1) = p.front + 1 + k := by omega
      rw [e4]

theorem pop_back_preserves {α : Type} (p : Pile α) (hinv : p.Inv) (hne : p.front < p.back) :
    ∃ v q, PILE_POP_BACK p = .value v q ∧ q.Inv ∧ contents p = contents q ++ [v]
      ∧ popBackIndex p + 1 ≤ p.capacity := by
  have hlen := hinv.length
  have hcp := contents_of_Inv hinv
  obtain ⟨h1, h2, h3, h4, h5⟩ := hinv
  have hl0 : PILE_LENGTH p ≠ 0 := by rw [hlen]; omega
  have hc0 : p.capacity ≠ 0 := by omega
  have hn : p.back - p.front = (p.back - p.front - 1) + 1 := by omega
  rw [PILE_POP_BACK_eq, if_neg hl0, if_neg hc0]
  have b0 : (p.back + ULONG - 1) % ULONG = p.back - 1 := by unfold ULONG; omega
  have hq : ({ p with back := (p.back + ULONG - 1) % ULONG } : Pile α).Inv := by
    unfold Pile.Inv
    simp only
    rw [b0]
    omega
  have hidx : popBackIndex p + 1 ≤ p.capacity := by
    unfold popBackIndex
    have := Nat.mod_lt ((p.back + ULONG - 1) % ULONG) h1
    omega
  refine ⟨_, _, rfl, hq, ?_, hidx⟩
  rw [hcp, contents_of_Inv hq]
  simp only
  rw [b0, hn, List.range_succ, List.map_append, List.map_singleton]
  have hn2 : p.back - 1 - p.front = p.back - p.front - 1 := by omega
  have hn3 : p.front + (p.back - p.front - 1) = p.back - 1 := by omega
  rw [hn2, hn3]

theorem front_lt_back_of_contents {α : Type} {p : Pile α} (hinv : p.Inv) (x : α) (t : List α)
    (h : contents p = x :: t) : p.front < p.back := by
  have hl : (contents p).length = p.back - p.front := by
    rw [contents_of_Inv hinv, List.length_map, List.length_range]
  rw [h, List.length_cons] at hl
  omega

theorem step_front {α : Type} (p : Pile α) (op : Op α) (out : Option α) (m : List α)
    (hinv : p.Inv) (hop : op.frontOnly = true)
    (href : refStep (contents p) op = some (out, m))
    (hg : ∀ c ∈ grownTo p op, c ≤ 2 ^ 63) :
    ∃ q, step p op = some (out, q) ∧ q.Inv ∧ contents q = m
      ∧ ∀ b ∈ accesses p op, b.1 + b.2.1 ≤ b.2.2 := by
  cases op with
  | push_back x => simp [Op.frontOnly] at hop
  | shrink_to_fit => simp [Op.frontOnly] at hop
  | increase_if_full => simp [Op.frontOnly] at hop
  | push_front x =>
    simp only [refStep, Option.some.injEq, Prod.mk.injEq] at href
    obtain ⟨rfl, rfl⟩ := href
    have hg2 : isFull p = true → p.capacity * __PILE_EXPONENT__ ≤ 2 ^ 63 := by
      intro hf
      apply hg
      simp [grownTo, hf]
    obtain ⟨hr, hc, hi⟩ := push_front_preserves p x hinv hg2
    obtain ⟨-, -, -, hb⟩ := growth_preserves p hinv hg2
    refine ⟨PILE_PUSH_FRONT p x, rfl, hr, hc, ?_⟩
    intro b hb2
    simp only [accesses, List.mem_append, List.mem_singleton] at hb2
    rcases hb2 with hb2 | rfl
    · exact hb b hb2
    · exact hi
  | pop_front =>
    cases hl : contents p with
    | nil => rw [hl] at href; simp [refStep] at href
    | cons x t =>
      rw [hl] at href
      simp only [refStep, Option.some.injEq, Prod.mk.injEq] at href
      obtain ⟨rfl, rfl⟩ := href
      have hne := front_lt_back_of_contents hinv x t hl
      obtain ⟨v, q, hpop, hq, hc, hi⟩ := pop_front_preserves p hinv hne
      rw [hl, List.cons.injEq] at hc
      obtain ⟨rfl, rfl⟩ := hc
      refine ⟨q, ?_, hq, rfl, ?_⟩
      · show (PILE_POP_FRONT p).toOption = _
        rw [hpop]; rfl
      · intro b hb2
        simp only [accesses] at hb2
        split at hb2
        · simp at hb2
        · rw [List.mem_singleton] at hb2
          subst hb2
          exact hi
  | pop_back =>
    cases hl : contents p with
    | nil => rw [hl] at href; simp [refStep] at href
    | cons x t =>
      have hne := front_lt_back_of_contents hinv x t hl
      obtain ⟨v, q, hpop, hq, hc, hi⟩ := pop_back_preserves p hinv hne
      rw [hc] at href
      simp only [refStep, List.getLast?_concat, List.dropLast_concat, Option.some.injEq,
        Prod.mk.injEq] at href
      obtain ⟨rfl, rfl⟩ := href
      refine ⟨q, ?_, hq, rfl, ?_⟩
      · show (PILE_POP_BACK p).toOption = _
        rw [hpop]; rfl
      · intro b hb2
        simp only [accesses] at hb2
        split at hb2
        · simp at hb2
        · rw [List.mem_singleton] at hb2
          subst hb2
          exact hi

theorem refOps_cons_eq_some {α : Type} (op : Op α) (ops : List (Op α)) (l r : List α)
    (outs : List α) (h : refOps (op :: ops) l = some (outs, r)) :
    ∃ out m outs1, refStep l op = some (out, m) ∧ refOps ops m = some (outs1, r)
      ∧ outs = out.toList ++ outs1 := by
  unfold refOps at h
  split at h
  · cases h
  · rename_i out m hstep
    split at h
    · cases h
    · rename_i outs1 r1 hrun
      simp only [Option.some.injEq, Prod.mk.injEq] at h
      obtain ⟨h1, h2⟩ := h
      subst h2
      exact ⟨out, m, outs1, hstep, hrun, h1.symm⟩

theorem refinement_front {α : Type} (ops : List (Op α)) :
    ∀ (p : Pile α) (outs l : List α), p.Inv → (∀ op ∈ ops, op.frontOnly = true) →
      refOps ops (contents p) = some (outs, l) →
      (∀ c ∈ allGrowths ops p, c ≤ 2 ^ 63) →
      ∃ q, runOps ops p = some (outs, q) ∧ contents q = l
        ∧ (∀ s ∈ trace ops p, s.Inv)
        ∧ (∀ b ∈ allAccesses ops p, b.1 + b.2.1 ≤ b.2.2) := by
  induction ops with
  | nil =>
    intro p outs l hinv _ href _
    simp only [refOps, Option.some.injEq, Prod.mk.injEq] at href
    obtain ⟨rfl, rfl⟩ := href
    refine ⟨p, rfl, rfl, ?_, ?_⟩
    · intro s hs
      simp only [trace, List.mem_singleton] at hs
      rw [hs]; exact hinv
    · intro b hb
      simp [allAccesses] at hb
  | cons op ops ih =>
    intro p outs l hinv hops href hgrow
    obtain ⟨out, m, outs1, hstep, hrun, rfl⟩ := refOps_cons_eq_some op ops _ l outs href
    have hg1 : ∀ c ∈ grownTo p op, c ≤ 2 ^ 63 := by
      intro c hc
      apply hgrow
      simp only [allGrowths, List.mem_append]
      exact Or.inl hc
    obtain ⟨q, hq1, hq2, hq3, hq4⟩ :=
      step_front p op out m hinv (hops op (List.mem_cons_self _ _)) hstep hg1
    have hg2 : ∀ c ∈ allGrowths ops q, c ≤ 2 ^ 63 := by
      intro c hc
      apply hgrow
      simp only [allGrowths, hq1, List.mem_append]
      exact Or.inr hc
    rw [← hq3] at hrun
    obtain ⟨r, hr1, hr2, hr3, hr4⟩ :=
      ih q outs1 l hq2 (fun o ho => hops o (List.mem_cons_of_mem _ ho)) hrun hg2
    refine ⟨r, runOps_cons_of op ops p q r out outs1 hq1 hr1, hr2, ?_, ?_⟩
    · intro s hs
      simp only [trace, hq1, List.mem_cons] at hs
      rcases hs with rfl | hs
      · exact hinv
      · exact hr3 s hs
    · intro b hb
      simp only [allAccesses, hq1, List.mem_append] at hb
      rcases hb with hb | hb
      · exact hq4 b hb
      · exact hr4 b hb

theorem INIT_PILE_Inv {α : Type} (dsize : Nat) (heap : Nat → α) : (INIT_PILE dsize heap).Inv := by
  unfold Pile.Inv INIT_PILE __PILE_DEFAULT_CAPACITY__
  simp only
  omega

/-- The front calls refine the deque in the flat memory of the model, the storage taken
as `capacity` element slots whatever the region is: for every sequence of
`PILE_PUSH_FRONT`, `PILE_POP_FRONT`, `PILE_POP_BACK` calls on a pile made by `INIT_PILE`
that a deque accepts and in which no growth takes the capacity past `2 ^ 63`, every call
returns, the popped values and the final contents are those of the reference deque, every
state visited satisfies the documented invariants, and every block of slots read or
written lies below the capacity in force.  Whether those slots lie inside the region is
another matter: `front_ops_refine_deque_of_one_byte` for one-byte elements,
`allOutOfRegion` in general. -/
theorem front_ops_refine_deque {α : Type} (dsize : Nat) (heap : Nat → α) (ops : List (Op α)) (outs l : List α)
    (hops : ∀ op ∈ ops, op.frontOnly = true)
    (href : refOps ops [] = some (outs, l))
    (hgrow : ∀ c ∈ allGrowths ops (INIT_PILE dsize heap), c ≤ 2 ^ 63) :
    (∃ q, runOps ops (INIT_PILE dsize heap) = some (outs, q) ∧ contents q = l)
      ∧ (∀ s ∈ trace ops (INIT_PILE dsize heap), s.Documented)
      ∧ (∀ b ∈ allAccesses ops (INIT_PILE dsize heap), b.1 + b.2.1 ≤ b.2.2) := by
  have h0 : contents (INIT_PILE dsize heap) = [] := by
    rw [contents_of_Inv (INIT_PILE_Inv dsize heap)]
    rfl
  rw [← h0] at href
  obtain ⟨q, h1, h2, h3, h4⟩ :=
    refinement_front ops (INIT_PILE dsize heap) outs l (INIT_PILE_Inv dsize heap) hops href hgrow
  exact ⟨⟨q, h1, h2⟩, fun s hs => (h3 s hs).documented, h4⟩

/-! Runs on `INIT_PILE`, whatever the fresh region holds. -/

theorem map_named_inr (heap : Nat → Nat) (ops : List (Op Nat)) :
    (ops.map (Op.map Sum.inr)).map (Op.map (named heap)) = ops := by
  induction ops with
  | nil => rfl
  | cons op ops ih =>
    rw [List.map_cons, List.map_cons, ih]
    cases op <;> rfl

theorem runOps_named (dsize : Nat) (heap : Nat → Nat) (ops : List (Op Nat)) :
    runOps ops (INIT_PILE dsize heap)
      = (runOps (ops.map (Op.map Sum.inr)) (INIT_PILE dsize Sum.inl)).map
          fun r => (r.1.map (named heap), r.2.map (named heap)) := by
  have h := runOps_map (named heap) (ops.map (Op.map Sum.inr)) (INIT_PILE dsize Sum.inl)
  rw [map_named_inr] at h
  rw [← h, ← INIT_PILE_named]

theorem summary_named (dsize : Nat) (heap : Nat → Nat) (ops : List (Op Nat)) :
    (runOps ops (INIT_PILE dsize heap)).map summary
      = ((runOps (ops.map (Op.map Sum.inr)) (INIT_PILE dsize Sum.inl)).map summary).map
          fun v => (v.1.map (named heap), v.2.1.map (named heap), v.2.2) := by
  rw [runOps_named]
  cases runOps (ops.map (Op.map Sum.inr)) (INIT_PILE dsize Sum.inl) with
  | none => rfl
  | some r =>
    simp only [Option.map_some', summary, contents_map]
    rfl

theorem allAccesses_named (dsize : Nat) (heap : Nat → Nat) (ops : List (Op Nat)) :
    allAccesses ops (INIT_PILE dsize heap)
      = allAccesses (ops.map (Op.map Sum.inr)) (INIT_PILE dsize Sum.inl) := by
  have h := allAccesses_map (named heap) (ops.map (Op.map Sum.inr)) (INIT_PILE dsize Sum.inl)
  rw [map_named_inr, ← INIT_PILE_named] at h
  exact h

theorem allGrowths_named (dsize : Nat) (heap : Nat → Nat) (ops : List (Op Nat)) :
    allGrowths ops (INIT_PILE dsize heap)
      = allGrowths (ops.map (Op.map Sum.inr)) (INIT_PILE dsize Sum.inl) := by
  have h := allGrowths_map (named heap) (ops.map (Op.map Sum.inr)) (INIT_PILE dsize Sum.inl)
  rw [map_named_inr, ← INIT_PILE_named] at h
  exact h

set_option maxRecDepth 100000 in
/-- C11: whatever the fresh region of `INIT_PILE(int)` holds, after push_back 1, 2, 3 and
push_front 0 the length is 4; `PILE_POP_FRONT` then returns 0 and `PILE_POP_BACK` returns
3, leaving `1, 2`; after push_back 4, ..., 9 the contents are `1, 2, 4, 5, 6, 7, 8, 9`; and
every slot read or written along the way is below the capacity 8. -/
theorem C11_scenario_values_and_bounds (heap : Nat → Nat) :
    (runOps scenarioPushes (INIT_PILE 4 heap)).map summary
        = some ([], [0, 1, 2, 3], 4, 8, 7, 11)
      ∧ (runOps (scenarioPushes ++ scenarioPops) (INIT_PILE 4 heap)).map summary
        = some ([0, 3], [1, 2], 2, 8, 0, 2)
      ∧ (runOps (scenarioPushes ++ scenarioPops ++ scenarioRefill) (INIT_PILE 4 heap)).map
            summary
        = some ([0, 3], [1, 2, 4, 5, 6, 7, 8, 9], 8, 8, 0, 8)
      ∧ allAccesses (scenarioPushes ++ scenarioPops ++ scenarioRefill) (INIT_PILE 4 heap)
        = [(0, 1, 8), (1, 1, 8), (2, 1, 8), (7, 1, 8), (7, 1, 8), (2, 1, 8), (2, 1, 8),
            (3, 1, 8), (4, 1, 8), (5, 1, 8), (6, 1, 8), (7, 1, 8)]
      ∧ ∀ b ∈ allAccesses (scenarioPushes ++ scenarioPops ++ scenarioRefill)
            (INIT_PILE 4 heap), b.1 + b.2.1 ≤ b.2.2 := by
  have h1 : (runOps (scenarioPushes.map (Op.map Sum.inr)) (INIT_PILE 4 Sum.inl)).map summary
      = some ([], [.inr 0, .inr 1, .inr 2, .inr 3], 4, 8, 7, 11) := by decide
  have h2 : (runOps ((scenarioPushes ++ scenarioPops).map (Op.map Sum.inr))
      (INIT_PILE 4 Sum.inl)).map summary
      = some ([.inr 0, .inr 3], [.inr 1, .inr 2], 2, 8, 0, 2) := by decide
  have h3 : (runOps ((scenarioPushes ++ scenarioPops ++ scenarioRefill).map (Op.map Sum.inr))
      (INIT_PILE 4 Sum.inl)).map summary
      = some ([.inr 0, .inr 3],
          [.inr 1, .inr 2, .inr 4, .inr 5, .inr 6, .inr 7, .inr 8, .inr 9], 8, 8, 0, 8) := by
    decide
  have h4 : allAccesses ((scenarioPushes ++ scenarioPops ++ scenarioRefill).map
      (Op.map Sum.inr)) (INIT_PILE 4 Sum.inl)
      = [(0, 1, 8), (1, 1, 8), (2, 1, 8), (7, 1, 8), (7, 1, 8), (2, 1, 8), (2, 1, 8),
            (3, 1, 8), (4, 1, 8), (5, 1, 8), (6, 1, 8), (7, 1, 8)] := by decide
  refine ⟨?_, ?_, ?_, ?_, ?_⟩
  · rw [summary_named, h1]; rfl
  · rw [summary_named, h2]; rfl
  · rw [summary_named, h3]; rfl
  · rw [allAccesses_named, h4]
  · rw [allAccesses_named, h4]
    decide

/-! Bounds kept by every call. -/

theorem isFull_iff_length {α : Type} (p : Pile α) (hp : p.InRange) :
    isFull p = true ↔ PILE_LENGTH p = p.capacity := by
  rw [isFull_iff]
  obtain ⟨h1, h2, h3⟩ := hp
  unfold PILE_LENGTH
  unfold ULONG at *
  omega

theorem increase_if_full_dsize {α : Type} (p : Pile α) : (increase_if_full p).dsize = p.dsize := by
  unfold increase_if_full; split <;> rfl

theorem PILE_POP_BACK_capacity {α : Type} (p q : Pile α) (x : α)
    (h : PILE_POP_BACK p = .value x q) : q.capacity = p.capacity := by
  rw [PILE_POP_BACK_eq] at h
  split at h
  · cases h
  · split at h
    · cases h
    · injection h with hx hq
      rw [← hq]

theorem PILE_POP_FRONT_capacity {α : Type} (p q : Pile α) (x : α)
    (h : PILE_POP_FRONT p = .value x q) : q.capacity = p.capacity := by
  rw [PILE_POP_FRONT_eq] at h
  split at h
  · cases h
  · split at h
    · split at h
      · cases h
      · injection h with hx hq
        rw [← hq]
    · split at h
      · cases h
      · injection h with hx hq
        rw [← hq]

theorem PILE_POP_BACK_nonempty {α : Type} (p q : Pile α) (x : α)
    (h : PILE_POP_BACK p = .value x q) : PILE_LENGTH p ≠ 0 := by
  intro h0
  rw [PILE_POP_BACK_eq, if_pos h0] at h
  cases h

theorem PILE_POP_FRONT_nonempty {α : Type} (p q : Pile α) (x : α)
    (h : PILE_POP_FRONT p = .value x q) : PILE_LENGTH p ≠ 0 := by
  intro h0
  rw [PILE_POP_FRONT_eq, if_pos h0] at h
  cases h

/-- C14: for every pile with `0 < capacity < 2 ^ 63` and `(back - front) mod 2 ^ 64 <=
capacity`, every call that returns (push_back, push_front, pop_back, pop_front,
increase_if_full, shrink_to_fit) leaves a pile with `(back - front) mod 2 ^ 64 <=
capacity`; the piles of `INIT_PILE` and `INIT_PILE_FROM` satisfy it too. -/
theorem C14_length_never_exceeds_capacity {α : Type} (p q : Pile α) (op : Op α)
    (out : Option α) (dsize n : Nat) (src heap : Nat → α)
    (hp : p.InRange) (hpos : 0 < p.capacity) (hcap : p.capacity < 2 ^ 63)
    (hlen : PILE_LENGTH p ≤ p.capacity) (hstep : step p op = some (out, q))
    (hn : n < ULONG) :
    PILE_LENGTH q ≤ q.capacity
      ∧ PILE_LENGTH (INIT_PILE dsize heap) ≤ (INIT_PILE dsize heap).capacity
      ∧ PILE_LENGTH (INIT_PILE_FROM dsize n src heap)
          ≤ (INIT_PILE_FROM dsize n src heap).capacity := by
  have hfl := isFull_iff_length p hp
  have hcp := increase_if_full_capacity p
  refine ⟨?_, ?_, ?_⟩
  · cases op with
    | push_back x =>
      simp only [step, Option.some.injEq, Prod.mk.injEq] at hstep
      obtain ⟨-, rfl⟩ := hstep
      rw [PILE_PUSH_BACK_length p hp x, PILE_PUSH_BACK_capacity, hcp]
      by_cases hf : isFull p = true
      · have := hfl.mp hf
        rw [if_pos hf]; unfold ULONG; omega
      · have : PILE_LENGTH p ≠ p.capacity := fun h => hf (hfl.mpr h)
        rw [if_neg hf]; unfold ULONG; omega
    | push_front x =>
      simp only [step, Option.some.injEq, Prod.mk.injEq] at hstep
      obtain ⟨-, rfl⟩ := hstep
      rw [PILE_PUSH_FRONT_length p hp x, PILE_PUSH_FRONT_capacity, hcp]
      by_cases hf : isFull p = true
      · have := hfl.mp hf
        rw [if_pos hf]; unfold ULONG; omega
      · have : PILE_LENGTH p ≠ p.capacity := fun h => hf (hfl.mpr h)
        rw [if_neg hf]; unfold ULONG; omega
    | pop_back =>
      obtain ⟨x, -, hx⟩ := PopResult.toOption_eq_some _ _ _ hstep
      obtain ⟨-, h2⟩ := PILE_POP_BACK_step p q x hp hx
      have h3 := PILE_POP_BACK_capacity p q x hx
      have h4 := PILE_LENGTH_lt q
      have h5 := PILE_POP_BACK_nonempty p q x hx
      rw [h3]; unfold ULONG at *; omega
    | pop_front =>
      obtain ⟨x, -, hx⟩ := PopResult.toOption_eq_some _ _ _ hstep
      obtain ⟨-, h2⟩ := PILE_POP_FRONT_step p q x hp hx
      have h3 := PILE_POP_FRONT_capacity p q x hx
      have h4 := PILE_LENGTH_lt q
      have h5 := PILE_POP_FRONT_nonempty p q x hx
      rw [h3]; unfold ULONG at *; omega
    | shrink_to_fit =>
      simp only [step, Option.some.injEq, Prod.mk.injEq] at hstep
      obtain ⟨-, rfl⟩ := hstep
      rw [shrink_to_fit_length p hp, shrink_to_fit_capacity]
    | increase_if_full =>
      simp only [step, Option.some.injEq, Prod.mk.injEq] at hstep
      obtain ⟨-, rfl⟩ := hstep
      rw [increase_if_full_length, hcp]
      by_cases hf : isFull p = true
      · rw [if_pos hf]; unfold ULONG; omega
      · rw [if_neg hf]; exact hlen
  · show (0 + ULONG - 0) % ULONG ≤ __PILE_DEFAULT_CAPACITY__
    unfold ULONG __PILE_DEFAULT_CAPACITY__; omega
  · show (n + ULONG - 0) % ULONG ≤ MAX n __PILE_DEFAULT_CAPACITY__
    unfold MAX __PILE_DEFAULT_CAPACITY__
    unfold ULONG at *
    split <;> omega

/-- C16: for every pile with `0 < capacity < 2 ^ 63` and `back - front <= capacity`,
`increase_if_full` takes its growth branch exactly when `back - front == capacity`; when
it does not, the pile is returned as it is; when it does, `capacity` is multiplied by 2
and `front`, `back`, `dsize` are unchanged; either way `back - front < capacity`
afterwards. -/
theorem C16_grows_exactly_when_full {α : Type} (p : Pile α) (hp : p.InRange)
    (hpos : 0 < p.capacity) (hcap : p.capacity < 2 ^ 63) (hlen : PILE_LENGTH p ≤ p.capacity) :
    (isFull p = true ↔ PILE_LENGTH p = p.capacity)
      ∧ (PILE_LENGTH p ≠ p.capacity → increase_if_full p = p)
      ∧ (PILE_LENGTH p = p.capacity →
          (increase_if_full p).capacity = 2 * p.capacity
            ∧ (increase_if_full p).front = p.front
            ∧ (increase_if_full p).back = p.back
            ∧ (increase_if_full p).dsize = p.dsize)
      ∧ PILE_LENGTH (increase_if_full p) < (increase_if_full p).capacity := by
  have hfl := isFull_iff_length p hp
  have hcp := increase_if_full_capacity p
  refine ⟨hfl, ?_, ?_, ?_⟩
  · intro hne
    have hf : isFull p = false := by
      cases h : isFull p with
      | false => rfl
      | true => exact absurd (hfl.mp h) hne
    unfold increase_if_full
    simp [hf]
  · intro heq
    rw [if_pos (hfl.mpr heq)] at hcp
    refine ⟨?_, increase_if_full_front p, increase_if_full_back p, increase_if_full_dsize p⟩
    rw [hcp]; unfold ULONG; omega
  · rw [increase_if_full_length, hcp]
    by_cases hf : isFull p = true
    · have := hfl.mp hf
      rw [if_pos hf]; unfold ULONG; omega
    · have : PILE_LENGTH p ≠ p.capacity := fun h => hf (hfl.mpr h)
      rw [if_neg hf]; omega

/-- C18: for every non-empty pile (`front < back`) with `capacity > 0` and
`front + 1 == capacity`, `PILE_POP_FRONT` returns the element at slot `capacity - 1`,
which is the index `((2 ^ 64 - 1) + capacity) mod 2 ^ 64 mod capacity` it computes, and
leaves `front == 0`, `back == old back - capacity` (with `capacity <= old back`, so no
underflow), the same capacity and data; `back - front` has decreased by exactly 1 and
every remaining logical index `i`, relabelled `i - capacity`, keeps its slot. -/
theorem C18_pop_front_relabels_at_last_slot {α : Type} (p : Pile α) (hp : p.InRange)
    (hpos : 0 < p.capacity) (hne : p.front < p.back) (hlast : p.front + 1 = p.capacity) :
    PILE_POP_FRONT p
        = .value (p.data (p.capacity - 1)) { p with front := 0, back := p.back - p.capacity }
      ∧ popFrontIndex p = p.capacity - 1
      ∧ ((ULONG - 1 + p.capacity) % ULONG) % p.capacity = p.capacity - 1
      ∧ p.capacity ≤ p.back
      ∧ PILE_LENGTH (PILE_POP_FRONT p).state + 1 = PILE_LENGTH p
      ∧ ∀ i, p.front < i → i < p.back → (i - p.capacity) % p.capacity = i % p.capacity := by
  obtain ⟨h1, h2, h3⟩ := hp
  have hl0 : PILE_LENGTH p ≠ 0 := by unfold PILE_LENGTH; unfold ULONG at *; omega
  have hc0 : p.capacity ≠ 0 := by omega
  have hrel : (p.front + 1) % ULONG = p.capacity := by unfold ULONG at *; omega
  have e0 : (ULONG - 1 + p.capacity) % ULONG = p.capacity - 1 := by unfold ULONG at *; omega
  have e1 : (p.capacity - 1) % p.capacity = p.capacity - 1 := Nat.mod_eq_of_lt (by omega)
  have f0 : (ULONG - 1 + 1) % ULONG = 0 := by unfold ULONG; omega
  have b0 : (p.back + ULONG - p.capacity) % ULONG = p.back - p.capacity := by
    unfold ULONG at *; omega
  have hpop : PILE_POP_FRONT p
      = .value (p.data (p.capacity - 1)) { p with front := 0, back := p.back - p.capacity } := by
    rw [PILE_POP_FRONT_eq, if_neg hl0, if_pos hrel, if_neg hc0, e0, e1, f0, b0]
  refine ⟨hpop, ?_, ?_, by omega, ?_, ?_⟩
  · unfold popFrontIndex
    rw [if_pos hrel, e0, e1]
  · rw [e0, e1]
  · rw [hpop]
    unfold PILE_LENGTH
    simp only [PopResult.state]
    unfold ULONG at *
    omega
  · intro i hi1 hi2
    have hic : p.capacity ≤ i := by omega
    exact (Nat.mod_eq_sub_mod hic).symm

/-! Further evaluations at concrete inputs. -/

/-- C12, counterexample: in the scenario on `INIT_PILE(int)` no call takes the growth
branch of `increase_if_full`, and the capacity is 8, not 16, after push_back 4, ..., 9. -/
theorem C12_counterexample_capacity_stays_eight :
    allGrowths (scenarioPushes ++ scenarioPops ++ scenarioRefill) (INIT_PILE 4 junk) = []
      ∧ (runOps (scenarioPushes ++ scenarioPops ++ scenarioRefill) (INIT_PILE 4 junk)).map
          (fun r => r.2.capacity) = some 8
      ∧ (runOps (scenarioPushes ++ scenarioPops ++ scenarioRefill) (INIT_PILE 4 junk)).map
          (fun r => r.2.capacity) ≠ some 16 := by
  refine ⟨?_, ?_, ?_⟩ <;> decide

set_option maxRecDepth 100000 in
/-- C12, amended: whatever the fresh region holds, the scenario (push_back 1, 2, 3;
push_front 0; pop_front; pop_back; push_back 4, ..., 9) triggers no growth:
`increase_if_full` never takes its growth branch and the capacity is still 8 at the end,
where the pile holds 8 elements, exactly its capacity; it is a seventh push that grows
it, to 16. -/
theorem C12_scenario_fills_without_growth (heap : Nat → Nat) :
    allGrowths (scenarioPushes ++ scenarioPops ++ scenarioRefill) (INIT_PILE 4 heap) = []
      ∧ (runOps (scenarioPushes ++ scenarioPops ++ scenarioRefill) (INIT_PILE 4 heap)).map
          (fun r => (PILE_LENGTH r.2, r.2.capacity, isFull r.2)) = some (8, 8, true)
      ∧ allGrowths (scenarioPushes ++ scenarioPops ++ scenarioRefill ++ [Op.push_back 10])
          (INIT_PILE 4 heap) = [16] := by
  have h1 : allGrowths ((scenarioPushes ++ scenarioPops ++ scenarioRefill).map
      (Op.map Sum.inr)) (INIT_PILE 4 Sum.inl) = [] := by decide
  have h2 : (runOps ((scenarioPushes ++ scenarioPops ++ scenarioRefill).map (Op.map Sum.inr))
      (INIT_PILE 4 Sum.inl)).map (fun r => (PILE_LENGTH r.2, r.2.capacity, isFull r.2))
      = some (8, 8, true) := by decide
  have h3 : allGrowths ((scenarioPushes ++ scenarioPops ++ scenarioRefill ++
      [Op.push_back 10]).map (Op.map Sum.inr)) (INIT_PILE 4 Sum.inl) = [16] := by decide
  refine ⟨?_, ?_, ?_⟩
  · rw [allGrowths_named, h1]
  · rw [runOps_named]
    cases hr : runOps ((scenarioPushes ++ scenarioPops ++ scenarioRefill).map
        (Op.map Sum.inr)) (INIT_PILE 4 Sum.inl) with
    | none => rw [hr] at h2; cases h2
    | some r =>
      rw [hr] at h2
      exact h2
  · rw [allGrowths_named, h3]

/-- C13, evaluated at the failing input: `INIT_PILE(int)` has capacity 8; after
`shrink_to_fit` on this empty pile the capacity is 0, it is still 0 after a
`PILE_PUSH_BACK`, and the `PILE_POP_BACK` that follows divides by zero. -/
theorem C13_shrink_to_fit_of_empty_pile_zeroes_capacity :
    (INIT_PILE 4 junk).capacity = 8
      ∧ (shrink_to_fit (INIT_PILE 4 junk)).capacity = 0
      ∧ (PILE_PUSH_BACK (shrink_to_fit (INIT_PILE 4 junk)) 1).capacity = 0
      ∧ PILE_LENGTH (PILE_PUSH_BACK (shrink_to_fit (INIT_PILE 4 junk)) 1) = 1
      ∧ (PILE_POP_BACK (PILE_PUSH_BACK (shrink_to_fit (INIT_PILE 4 junk)) 1)).isDivByZero
          = true := by
  refine ⟨?_, ?_, ?_, ?_, ?_⟩ <;> decide

/-- C14, witness: the push_back on the full pile `fullOfInts` (length 8, capacity 8)
leaves length 9 under capacity 16. -/
theorem C14_push_on_full_witness :
    PILE_LENGTH (PILE_PUSH_BACK fullOfInts 1) ≤ (PILE_PUSH_BACK fullOfInts 1).capacity
      ∧ PILE_LENGTH (INIT_PILE 4 junk) ≤ (INIT_PILE 4 junk).capacity
      ∧ PILE_LENGTH (INIT_PILE_FROM 4 10 sample junk)
          ≤ (INIT_PILE_FROM 4 10 sample junk).capacity :=
  C14_length_never_exceeds_capacity fullOfInts (PILE_PUSH_BACK fullOfInts 1) (.push_back 1)
    none 4 10 sample junk (by unfold Pile.InRange; decide) (by decide) (by decide)
    (by decide) rfl (by decide)

/-- C15, evaluated at the failing input: `tailPile` (capacity 8, front 5, back 7)
satisfies the documented invariants; after `shrink_to_fit` its front is 5 and its
capacity 2.  On the empty `INIT_PILE(int)`, `shrink_to_fit` leaves front 0 and
capacity 0. -/
theorem C15_shrink_to_fit_leaves_front_beyond_capacity :
    tailPile.Documented
      ∧ ((shrink_to_fit tailPile).front, (shrink_to_fit tailPile).capacity) = (5, 2)
      ∧ ¬ (shrink_to_fit tailPile).front < (shrink_to_fit tailPile).capacity
      ∧ (INIT_PILE 4 junk).Documented
      ∧ ((shrink_to_fit (INIT_PILE 4 junk)).front,
          (shrink_to_fit (INIT_PILE 4 junk)).capacity) = (0, 0) := by
  refine ⟨?_, ?_, ?_, ?_, ?_⟩
  · unfold Pile.Documented; decide
  · decide
  · decide
  · unfold Pile.Documented; decide
  · decide

/-- C16, witness: `fullOfInts` is full and grows from 8 to 16. -/
theorem C16_growth_witness :
    (isFull fullOfInts = true ↔ PILE_LENGTH fullOfInts = fullOfInts.capacity)
      ∧ (PILE_LENGTH fullOfInts ≠ fullOfInts.capacity → increase_if_full fullOfInts = fullOfInts)
      ∧ (PILE_LENGTH fullOfInts = fullOfInts.capacity →
          (increase_if_full fullOfInts).capacity = 2 * fullOfInts.capacity
            ∧ (increase_if_full fullOfInts).front = fullOfInts.front
            ∧ (increase_if_full fullOfInts).back = fullOfInts.back
            ∧ (increase_if_full fullOfInts).dsize = fullOfInts.dsize)
      ∧ PILE_LENGTH (increase_if_full fullOfInts) < (increase_if_full fullOfInts).capacity :=
  C16_grows_exactly_when_full fullOfInts (by unfold Pile.InRange; decide) (by decide)
    (by decide) (by decide)

/-- C17, evaluated at the failing input: on `frontPushed` (capacity 8, front 7, back 8)
`PILE_PUSH_BACK` of `1` does not grow the pile and its only access is a store at slot 8,
under capacity 8; slot `8 mod 8 = 0` still holds its old content `100`. -/
theorem C17_push_back_stores_beyond_capacity :
    frontPushed.Documented
      ∧ accesses frontPushed (.push_back 1) = [(8, 1, 8)]
      ∧ frontPushed.back % (increase_if_full frontPushed).capacity = 0
      ∧ (PILE_PUSH_BACK frontPushed 1).data 8 = 1
      ∧ (PILE_PUSH_BACK frontPushed 1).data 0 = 100
      ∧ frontPushed.data 0 = 100 := by
  refine ⟨?_, ?_, ?_, ?_, ?_, ?_⟩
  · unfold Pile.Documented; decide
  all_goals decide

/-- C18, witness: `lastSlotPile` holds `17, 18, 19` with `front = 7 = capacity - 1`; the
pop returns `17` from slot 7 and leaves front 0, back 2. -/
theorem C18_relabel_witness :
    PILE_POP_FRONT lastSlotPile
        = .value (lastSlotPile.data (lastSlotPile.capacity - 1))
            { lastSlotPile with front := 0, back := lastSlotPile.back - lastSlotPile.capacity }
      ∧ popFrontIndex lastSlotPile = lastSlotPile.capacity - 1
      ∧ ((ULONG - 1 + lastSlotPile.capacity) % ULONG) % lastSlotPile.capacity
          = lastSlotPile.capacity - 1
      ∧ lastSlotPile.capacity ≤ lastSlotPile.back
      ∧ PILE_LENGTH (PILE_POP_FRONT lastSlotPile).state + 1 = PILE_LENGTH lastSlotPile
      ∧ (9 - lastSlotPile.capacity) % lastSlotPile.capacity = 9 % lastSlotPile.capacity :=
  have h := C18_pop_front_relabels_at_last_slot lastSlotPile (by unfold Pile.InRange; decide)
    (by decide) (by decide) (by decide)
  ⟨h.1, h.2.1, h.2.2.1, h.2.2.2.1, h.2.2.2.2.1, h.2.2.2.2.2 9 (by decide) (by decide)⟩

/-- C19, evaluated at the failing input: `fullOfInts` has 8 slots of 4 bytes in a region
of 32 bytes; `increase_if_full` makes the capacity 16 and resizes the region to 16 bytes,
not `16 * 4 = 64`: less than the 32 bytes the old elements occupy. -/
theorem C19_growth_resizes_to_capacity_bytes :
    (fullOfInts.capacity, fullOfInts.dsize, fullOfInts.alloc) = (8, 4, 32)
      ∧ isFull fullOfInts = true
      ∧ ((increase_if_full fullOfInts).capacity, (increase_if_full fullOfInts).dsize,
          (increase_if_full fullOfInts).alloc) = (16, 4, 16)
      ∧ (increase_if_full fullOfInts).alloc < fullOfInts.capacity * fullOfInts.dsize
      ∧ (increase_if_full fullOfInts).alloc
          ≠ (increase_if_full fullOfInts).capacity * (increase_if_full fullOfInts).dsize := by
  refine ⟨?_, ?_, ?_, ?_, ?_⟩ <;> decide

/-! The front calls on one-byte elements stay inside the region. -/

theorem PILE_PUSH_FRONT_region {α : Type} (p : Pile α) (x : α) :
    (PILE_PUSH_FRONT p x).dsize = (increase_if_full p).dsize
      ∧ (PILE_PUSH_FRONT p x).alloc = (increase_if_full p).alloc := by
  unfold PILE_PUSH_FRONT
  by_cases h : (increase_if_full p).front = 0 <;> simp [h]

theorem PILE_POP_FRONT_region {α : Type} (p q : Pile α) (x : α)
    (h : PILE_POP_FRONT p = .value x q) : q.dsize = p.dsize ∧ q.alloc = p.alloc := by
  rw [PILE_POP_FRONT_eq] at h
  split at h
  · cases h
  · split at h
    · split at h
      · cases h
      · injection h with hx hq
        rw [← hq]
        exact ⟨rfl, rfl⟩
    · split at h
      · cases h
      · injection h with hx hq
        rw [← hq]
        exact ⟨rfl, rfl⟩

theorem PILE_POP_BACK_region {α : Type} (p q : Pile α) (x : α)
    (h : PILE_POP_BACK p = .value x q) : q.dsize = p.dsize ∧ q.alloc = p.alloc := by
  rw [PILE_POP_BACK_eq] at h
  split at h
  · cases h
  · split at h
    · cases h
    · injection h with hx hq
      rw [← hq]
      exact ⟨rfl, rfl⟩

theorem increase_if_full_Stored_of_one_byte {α : Type} (p : Pile α) (hbyte : p.dsize = 1)
    (hst : p.Stored) : (increase_if_full p).Stored := by
  unfold Pile.Stored at *
  rw [increase_if_full_capacity, increase_if_full_alloc, increase_if_full_dsize_eq, hbyte]
  rw [hbyte] at hst
  split <;> omega

theorem growBlocks_capacity {α : Type} (p : Pile α) :
    ∀ b ∈ growBlocks p, b.2.2 = (increase_if_full p).capacity := by
  intro b hb
  unfold growBlocks at hb
  by_cases hf : isFull p = true
  · rw [if_pos hf] at hb
    rw [increase_if_full_capacity, if_pos hf]
    simp only [List.mem_cons, List.mem_singleton, List.not_mem_nil, or_false] at hb
    rcases hb with rfl | rfl <;> rfl
  · rw [if_neg hf] at hb
    simp at hb

theorem step_front_region {α : Type} (p q : Pile α) (op : Op α) (out : Option α)
    (hop : op.frontOnly = true) (hbyte : p.dsize = 1) (hst : p.Stored)
    (hstep : step p op = some (out, q))
    (hacc : ∀ b ∈ accesses p op, b.1 + b.2.1 ≤ b.2.2) :
    q.dsize = 1 ∧ q.Stored ∧ outOfRegion p op = [] := by
  have hgs := increase_if_full_Stored_of_one_byte p hbyte hst
  have hgd : (increase_if_full p).dsize = 1 := by rw [increase_if_full_dsize_eq, hbyte]
  cases op with
  | push_back x => simp [Op.frontOnly] at hop
  | shrink_to_fit => simp [Op.frontOnly] at hop
  | increase_if_full => simp [Op.frontOnly] at hop
  | push_front x =>
    simp only [step, Option.some.injEq, Prod.mk.injEq] at hstep
    obtain ⟨-, rfl⟩ := hstep
    obtain ⟨hd, ha⟩ := PILE_PUSH_FRONT_region p x
    have hc := PILE_PUSH_FRONT_capacity p x
    refine ⟨by rw [hd, hgd], ?_, ?_⟩
    · unfold Pile.Stored at *
      rw [hc, hd, ha]; exact hgs
    · unfold outOfRegion
      rw [List.filter_eq_nil_iff]
      intro b hb
      have h1 := hacc b hb
      have h2 : b.2.2 = (increase_if_full p).capacity := by
        simp only [accesses, List.mem_append, List.mem_singleton] at hb
        rcases hb with hb | rfl
        · exact growBlocks_capacity p b hb
        · rfl
      unfold Pile.Stored at hgs
      simp only [regionInForce, decide_eq_true_eq, not_and, Nat.not_lt]
      intro _
      rw [hgd] at hgs ⊢
      omega
  | pop_front =>
    obtain ⟨x, -, hx⟩ := PopResult.toOption_eq_some _ _ _ hstep
    obtain ⟨hd, ha⟩ := PILE_POP_FRONT_region p q x hx
    have hc := PILE_POP_FRONT_capacity p q x hx
    refine ⟨by rw [hd, hbyte], ?_, ?_⟩
    · unfold Pile.Stored at *
      rw [hc, hd, ha]; exact hst
    · unfold outOfRegion
      rw [List.filter_eq_nil_iff]
      intro b hb
      have h1 := hacc b hb
      have h2 : b.2.2 = p.capacity := by
        simp only [accesses] at hb
        split at hb
        · simp at hb
        · rw [List.mem_singleton] at hb
          rw [hb]
      unfold Pile.Stored at hst
      simp only [regionInForce, decide_eq_true_eq, not_and, Nat.not_lt]
      intro _
      rw [hbyte] at hst ⊢
      omega
  | pop_back =>
    obtain ⟨x, -, hx⟩ := PopResult.toOption_eq_some _ _ _ hstep
    obtain ⟨hd, ha⟩ := PILE_POP_BACK_region p q x hx
    have hc := PILE_POP_BACK_capacity p q x hx
    refine ⟨by rw [hd, hbyte], ?_, ?_⟩
    · unfold Pile.Stored at *
      rw [hc, hd, ha]; exact hst
    · unfold outOfRegion
      rw [List.filter_eq_nil_iff]
      intro b hb
      have h1 := hacc b hb
      have h2 : b.2.2 = p.capacity := by
        simp only [accesses] at hb
        split at hb
        · simp at hb
        · rw [List.mem_singleton] at hb
          rw [hb]
      unfold Pile.Stored at hst
      simp only [regionInForce, decide_eq_true_eq, not_and, Nat.not_lt]
      intro _
      rw [hbyte] at hst ⊢
      omega

theorem front_ops_region {α : Type} (ops : List (Op α)) :
    ∀ (p r : Pile α) (outs : List α), p.dsize = 1 → p.Stored →
      (∀ op ∈ ops, op.frontOnly = true) → runOps ops p = some (outs, r) →
      (∀ b ∈ allAccesses ops p, b.1 + b.2.1 ≤ b.2.2) →
      (∀ s ∈ trace ops p, s.Stored) ∧ allOutOfRegion ops p = [] := by
  induction ops with
  | nil =>
    intro p r outs _ hst _ _ _
    refine ⟨?_, rfl⟩
    intro s hs
    simp only [trace, List.mem_singleton] at hs
    rw [hs]; exact hst
  | cons op ops ih =>
    intro p r outs hbyte hst hops hrun hacc
    obtain ⟨out, q, outs1, hstep, hrun1, -⟩ := runOps_cons_eq_some op ops p r outs hrun
    have hacc1 : ∀ b ∈ accesses p op, b.1 + b.2.1 ≤ b.2.2 := by
      intro b hb
      apply hacc
      simp only [allAccesses, List.mem_append]
      exact Or.inl hb
    have hacc2 : ∀ b ∈ allAccesses ops q, b.1 + b.2.1 ≤ b.2.2 := by
      intro b hb
      apply hacc
      simp only [allAccesses, hstep, List.mem_append]
      exact Or.inr hb
    obtain ⟨hq1, hq2, hq3⟩ :=
      step_front_region p q op out (hops op (List.mem_cons_self _ _)) hbyte hst hstep hacc1
    obtain ⟨h1, h2⟩ :=
      ih q r outs1 hq1 hq2 (fun o ho => hops o (List.mem_cons_of_mem _ ho)) hrun1 hacc2
    refine ⟨?_, ?_⟩
    · intro s hs
      simp only [trace, hstep, List.mem_cons] at hs
      rcases hs with rfl | hs
      · exact hst
      · exact h1 s hs
    · simp only [allOutOfRegion, hstep, hq3, h2, List.append_nil]

/-- The front calls on a pile of one-byte elements refine the deque inside the region:
for every sequence of `PILE_PUSH_FRONT`, `PILE_POP_FRONT`, `PILE_POP_BACK` calls on
`INIT_PILE(char)` that a deque accepts and in which no growth takes the capacity past
`2 ^ 63`, every call returns, the popped values and the final contents are those of the
reference deque, every state visited satisfies the documented invariants and has a
region of at least `capacity` bytes, every block read or written lies below the capacity
in force, and none ends beyond the region. -/
theorem front_ops_refine_deque_of_one_byte {α : Type} (heap : Nat → α) (ops : List (Op α))
    (outs l : List α) (hops : ∀ op ∈ ops, op.frontOnly = true)
    (href : refOps ops [] = some (outs, l))
    (hgrow : ∀ c ∈ allGrowths ops (INIT_PILE 1 heap), c ≤ 2 ^ 63) :
    (∃ q, runOps ops (INIT_PILE 1 heap) = some (outs, q) ∧ contents q = l)
      ∧ (∀ s ∈ trace ops (INIT_PILE 1 heap), s.Documented ∧ s.Stored)
      ∧ (∀ b ∈ allAccesses ops (INIT_PILE 1 heap), b.1 + b.2.1 ≤ b.2.2)
      ∧ allOutOfRegion ops (INIT_PILE 1 heap) = [] := by
  obtain ⟨⟨q, hq1, hq2⟩, h2, h3⟩ := front_ops_refine_deque 1 heap ops outs l hops href hgrow
  have hst : (INIT_PILE 1 heap).Stored := by
    unfold Pile.Stored INIT_PILE __PILE_DEFAULT_CAPACITY__ ULONG
    simp only
    omega
  obtain ⟨h4, h5⟩ := front_ops_region ops (INIT_PILE 1 heap) q outs rfl hst hops hq1 h3
  exact ⟨⟨q, hq1, hq2⟩, fun s hs => ⟨h2 s hs, h4 s hs⟩, h3, h5⟩

/-! The region after a growth. -/

/-- The byte arguments of the second `shrink_to_fit` on `tailPile`: offsets 20 and 20,
size `2 ^ 64 - 12`. -/
theorem shrinkMoveBytes_of_second_shrink :
    shrinkMoveBytes (shrink_to_fit tailPile) = (20, 20, 2 ^ 64 - 12) := by
  decide

/-- C4, evaluated at the failing input: the full pile `fullOfInts` (8 four-byte elements
in a region of 32 bytes) satisfies the documented invariants and the storage invariant,
and doubling its capacity does not overflow; `PILE_PUSH_FRONT` grows it to capacity 16 in
a region of 16 bytes and stores at slot 15, bytes 60 to 63, and the `PILE_POP_FRONT`
that follows reads that slot: both accesses end beyond the region. -/
theorem C4_push_front_on_full_pile_leaves_region :
    fullOfInts.Documented
      ∧ fullOfInts.Stored
      ∧ fullOfInts.capacity * __PILE_EXPONENT__ < ULONG
      ∧ isFull fullOfInts = true
      ∧ regionInForce fullOfInts (.push_front 5) = (4, 16)
      ∧ accesses fullOfInts (.push_front 5) = [(8, 0, 16), (0, 0, 16), (15, 1, 16)]
      ∧ outOfRegion fullOfInts (.push_front 5) = [(15, 1, 16)]
      ∧ regionInForce (PILE_PUSH_FRONT fullOfInts 5) .pop_front = (4, 16)
      ∧ accesses (PILE_PUSH_FRONT fullOfInts 5) .pop_front = [(15, 1, 16)]
      ∧ outOfRegion (PILE_PUSH_FRONT fullOfInts 5) .pop_front = [(15, 1, 16)] := by
  refine ⟨?_, ?_, ?_, ?_, ?_, ?_, ?_, ?_, ?_, ?_⟩
  · unfold Pile.Documented; decide
  · unfold Pile.Stored; decide
  all_goals decide

/-- C5, evaluated at the failing input: the full pile `fullOfInts` holds its eight
elements, logical indices 0 to 7, inside its region of 32 bytes; after
`increase_if_full` the region has 16 bytes and only the indices 0 to 3 are inside it.
The full pile that `wrapOps` leaves (capacity 8, front 5, back 13, region of 32 bytes)
has all of its indices 5 to 12 inside the region; the `memcpy` of its growth reads slots
0 to 4 and writes slots 8 to 12 of a region of 16 bytes, and afterwards none of the
indices 5 to 12 is inside the region. -/
theorem C5_growth_leaves_elements_outside_region :
    (isFull fullOfInts, fullOfInts.front, fullOfInts.back, fullOfInts.capacity)
        = (true, 0, 8, 8)
      ∧ indicesInRegion fullOfInts = [0, 1, 2, 3, 4, 5, 6, 7]
      ∧ indicesInRegion (increase_if_full fullOfInts) = [0, 1, 2, 3]
      ∧ (runOps wrapOps (INIT_PILE 4 junk)).map
          (fun r => (isFull r.2, r.2.front, r.2.back, r.2.capacity, r.2.dsize, r.2.alloc))
        = some (true, 5, 13, 8, 4, 32)
      ∧ (runOps wrapOps (INIT_PILE 4 junk)).map (fun r => indicesInRegion r.2)
        = some [5, 6, 7, 8, 9, 10, 11, 12]
      ∧ (runOps wrapOps (INIT_PILE 4 junk)).map
          (fun r => (regionInForce r.2 .increase_if_full, accesses r.2 .increase_if_full,
            outOfRegion r.2 .increase_if_full))
        = some ((4, 16), [(8, 5, 16), (0, 5, 16)], [(8, 5, 16), (0, 5, 16)])
      ∧ (runOps wrapOps (INIT_PILE 4 junk)).map
          (fun r => indicesInRegion (increase_if_full r.2))
        = some [] := by
  refine ⟨?_, ?_, ?_, ?_, ?_, ?_, ?_⟩ <;> decide

end Enistd42
